import Mathlib

/-!
Verification development for the ai-schedule-beautifier repository.

The definitions below are shallow embeddings of the TypeScript source:
  - src/App.tsx: parseDate, getColor, detectFormat and the row decoding
    loop inside handleGenerate;
  - src/components/Schedule.tsx (current revision): minutesOfDay, the
    visible window, unionIntervals, segments, mapMinToY, the per-day
    greedy column packing inside eventsByDay, visibleDayIndices, and the
    EventModal handleSave validation.

Modelling conventions:
  - JS numbers that hold integral minute / timestamp values are Int;
    pixel heights (which JS computes as floating point ratios) are Rat.
  - A Date built by new Date(year, month, day, hour, minute) is the Ts
    record of its five components; Ts.key is an order embedding that
    agrees with Date.getTime ordering whenever the components are in
    their calendar ranges (the normalisation JS applies to out-of-range
    components is not modelled).
  - The event id string (built from toISOString, timezone dependent) is
    presentation-only and omitted from the record.
-/

namespace AISB

/-- Whitespace as matched by the regexes and parseInt trimming in the
source (space, tab, newline, carriage return). -/
def isJsWs (c : Char) : Bool :=
  c = ' ' || c = '\t' || c = '\n' || c = '\r'

/-- JS String.prototype.split with the regex of one-or-more whitespace
characters, as used on columns 0 and 1 in handleGenerate: the string is
cut at every maximal whitespace run; a leading run contributes a leading
empty field and a trailing run a trailing empty field. -/
def jsSplitWs (s : String) : List String :=
  let fin := s.data.foldl
    (fun (st : List String × List Char × Bool) c =>
      if isJsWs c then
        if st.2.2 then st
        else (String.mk st.2.1.reverse :: st.1, ([], true))
      else (st.1, (c :: st.2.1, false)))
    ([], ([], false))
  (String.mk fin.2.1.reverse :: fin.1).reverse

/-- JS String.prototype.split with a one-character separator string (the
"/" and ":" splits of parseDate and the newline split of detectFormat):
the string is cut at every separator occurrence; adjacent separators and
separators at either end contribute empty fields, and an empty input
yields one empty field. -/
def jsSplitChar (sep : Char) (s : String) : List String :=
  let fin := s.data.foldl
    (fun (st : List String × List Char) c =>
      if c = sep then (String.mk st.2.reverse :: st.1, [])
      else (st.1, c :: st.2))
    ([], [])
  (String.mk fin.2.reverse :: fin.1).reverse

/-- Value of a list of decimal digit characters. -/
def digitsVal (l : List Char) : Int :=
  l.foldl (fun a c => a * 10 + ((c.toNat : Int) - 48)) 0

/-- JS parseInt(s, 10): skip leading whitespace, optional sign, then the
longest run of decimal digits; NaN (modelled as none) when that run is
empty. Later non-digit characters are ignored. -/
def jsParseInt (s : String) : Option Int :=
  let l := s.data.dropWhile isJsWs
  let sl : Int × List Char :=
    match l with
    | '-' :: r => (-1, r)
    | '+' :: r => (1, r)
    | _ => (1, l)
  let ds := sl.2.takeWhile Char.isDigit
  if ds.isEmpty then none else some (sl.1 * digitsVal ds)

/-- JS parseFloat on finite decimal literals: skip leading whitespace,
optional sign, digits with an optional fractional part, optional
exponent; NaN (none) when no digit is found. The Infinity literal is
outside this model. -/
def jsParseFloat (s : String) : Option ℚ :=
  let l := s.data.dropWhile isJsWs
  let sl : ℚ × List Char :=
    match l with
    | '-' :: r => (-1, r)
    | '+' :: r => (1, r)
    | _ => (1, l)
  let ipart := sl.2.takeWhile Char.isDigit
  let rest := sl.2.dropWhile Char.isDigit
  let fr : List Char × List Char :=
    match rest with
    | '.' :: r => (r.takeWhile Char.isDigit, r.dropWhile Char.isDigit)
    | _ => ([], rest)
  if ipart.isEmpty && fr.1.isEmpty then none
  else
    let mant : ℚ := ((digitsVal (ipart ++ fr.1) : Int) : ℚ) / (10 : ℚ) ^ fr.1.length
    let expo : Int :=
      match fr.2 with
      | 'e' :: r =>
        let es : Int × List Char :=
          match r with
          | '-' :: rr => (-1, rr)
          | '+' :: rr => (1, rr)
          | _ => (1, r)
        let eds := es.2.takeWhile Char.isDigit
        if eds.isEmpty then 0 else es.1 * digitsVal eds
      | 'E' :: r =>
        let es : Int × List Char :=
          match r with
          | '-' :: rr => (-1, rr)
          | '+' :: rr => (1, rr)
          | _ => (1, r)
        let eds := es.2.takeWhile Char.isDigit
        if eds.isEmpty then 0 else es.1 * digitsVal eds
      | _ => 0
    some (sl.1 * mant * (10 : ℚ) ^ expo)

/-- The idiom parseInt(x, 10) || 0 of the decoder: NaN falls back to 0,
every other value (0 included) is kept. -/
def parseIntOr0 (s : String) : Int :=
  match jsParseInt s with
  | some v => v
  | none => 0

/-- The idiom parseFloat(x) || 0 of the decoder. -/
def parseFloatOr0 (s : String) : ℚ :=
  match jsParseFloat s with
  | some v => v
  | none => 0

/-- Occurrences of one character in a string, as (line.match(regex) || []).length
counts them in detectFormat. -/
def countChar (c : Char) (s : String) : Nat :=
  s.data.count c

/-- A Date value new Date(year, month, day, hour, minute) as its five
components; month is the 0-indexed month the constructor receives. -/
structure Ts where
  year : Int
  month0 : Int
  day : Int
  hour : Int
  minute : Int
deriving DecidableEq, Repr

/-- Order embedding of Ts components: for components inside their
calendar ranges this orders exactly as Date.getTime does, which is how
the source compares Date values. -/
def Ts.key (t : Ts) : Int :=
  (((t.year * 12 + t.month0) * 32 + t.day) * 24 + t.hour) * 60 + t.minute

/-- The decoded event record of src/types.ts (the derived id string is
presentation-only and omitted; the end field is named stop). -/
structure ScheduleEvent where
  start : Ts
  stop : Ts
  title : String
  description : String
  capacity : Int
  total : Int
  waiting : Int
  price : ℚ
  color : String
deriving DecidableEq, Repr

/-- parseDate of src/App.tsx: the date string splits on "/" into exactly
three parts and the time string on ":" into exactly two; the five parts
go through parseInt(_, 10) and all must be numbers; the Date is built
with the month converted to 0-indexed (the source subtracts 1 before its
NaN check, and NaN minus 1 is NaN, so checking the difference is the
same as checking the parsed month). -/
def parseDate (dateStr timeStr : String) : Option Ts :=
  let dateParts := jsSplitChar '/' dateStr
  let timeParts := jsSplitChar ':' timeStr
  if dateParts.length = 3 ∧ timeParts.length = 2 then
    match jsParseInt (dateParts.getD 0 ""), jsParseInt (dateParts.getD 1 ""),
        jsParseInt (dateParts.getD 2 ""), jsParseInt (timeParts.getD 0 ""),
        jsParseInt (timeParts.getD 1 "") with
    | some day, some month, some year, some hour, some minute =>
        some ⟨year, month - 1, day, hour, minute⟩
    | _, _, _, _, _ => none
  else none

/-- The 8 background/border classes of the COLORS palette. -/
def COLORS : List String :=
  ["bg-rose-200 border-rose-300", "bg-amber-200 border-amber-300",
   "bg-lime-200 border-lime-300", "bg-emerald-200 border-emerald-300",
   "bg-cyan-200 border-cyan-300", "bg-violet-200 border-violet-300",
   "bg-fuchsia-200 border-fuchsia-300", "bg-sky-200 border-sky-300"]

/-- The 8 text classes of the TEXT_COLORS palette. -/
def TEXT_COLORS : List String :=
  ["text-rose-800", "text-amber-800", "text-lime-800", "text-emerald-800",
   "text-cyan-800", "text-violet-800", "text-fuchsia-800", "text-sky-800"]

/-- The title-to-color Map of the decoder, as an insertion-ordered
association list (JS Map iteration and size follow insertion order, and
getColor only ever inserts fresh keys, so keys are distinct). An entry is
(title, (bg, text)). -/
abbrev ColorMap := List (String × String × String)

/-- Map.has of the color map. -/
def mapHas (m : ColorMap) (t : String) : Bool :=
  (List.any m fun p => p.1 = t)

/-- Map.get of the color map. -/
def mapGet (m : ColorMap) (t : String) : Option (String × String) :=
  (List.find? (fun p => p.1 = t) m).map (fun p => p.2)

/-- getColor of src/App.tsx: a fresh title is inserted with the palette
pair at index size mod 8; the pair stored for the title is returned
together with the updated map. -/
def getColor (title : String) (m : ColorMap) : (String × String) × ColorMap :=
  if mapHas m title then
    ((mapGet m title).getD ("", ""), m)
  else
    let index := (List.length m) % COLORS.length
    let pair := (COLORS.getD index "", TEXT_COLORS.getD index "")
    (pair, m ++ [(title, pair)])

/-- The detected dialect. -/
inductive Dialect where
  | csv
  | tsv
deriving DecidableEq, Repr

/-- First line of the raw text, text.split("\n")[0]. -/
def firstLine (text : String) : String :=
  (jsSplitChar '\n' text).headD ""

/-- detectFormat of src/App.tsx: strictly more commas than tabs on the
first line means CSV, otherwise TSV. -/
def detectFormat (text : String) : Dialect :=
  if countChar '\t' (firstLine text) < countChar ',' (firstLine text) then .csv else .tsv

/-- The failures the row mapping in handleGenerate can raise. typeError
is the TypeError thrown when a date+time field has no whitespace at all,
so the destructured time string is undefined and undefined.split
crashes; its message text is engine-defined. -/
inductive DecodeError where
  | notEnoughColumns (rowNum found : Nat)
  | invalidDateTime (rowNum : Nat) (field0 field1 : String)
  | typeError (rowNum : Nat)
deriving DecidableEq, Repr

/-- The user-facing message of a decode failure, exactly as the source
throws it (none for the engine-defined TypeError text). -/
def renderError : DecodeError → Option String
  | .notEnoughColumns n k =>
      some ("Row " ++ toString n ++ ": Not enough columns. Expected 8, found "
        ++ toString k ++ ".")
  | .invalidDateTime n f0 f1 =>
      some ("Row " ++ toString n ++ ": Invalid date/time format in \"" ++ f0
        ++ "\" or \"" ++ f1 ++ "\".")
  | .typeError _ => none

/-- One iteration of the row mapping in handleGenerate: column count
check, whitespace split of columns 0 and 1, parseDate on both, then the
record build with numeric coercion and color assignment. index is the
0-based data row index; thrown row numbers are index + 2. -/
def decodeRow (index : Nat) (columns : List String) (cm : ColorMap) :
    Except DecodeError (ScheduleEvent × ColorMap) :=
  if columns.length < 8 then
    .error (.notEnoughColumns (index + 2) columns.length)
  else
    match jsSplitWs (columns.getD 0 ""), jsSplitWs (columns.getD 1 "") with
    | sd :: st :: _, ed :: et :: _ =>
      match parseDate sd st, parseDate ed et with
      | some start, some stop =>
        let title := columns.getD 2 ""
        let (pair, cm') := getColor title cm
        .ok ({ start := start, stop := stop, title := title,
               description := columns.getD 3 "",
               capacity := parseIntOr0 (columns.getD 4 ""),
               total := parseIntOr0 (columns.getD 5 ""),
               waiting := parseIntOr0 (columns.getD 6 ""),
               price := parseFloatOr0 (columns.getD 7 ""),
               color := pair.1 ++ " " ++ pair.2 }, cm')
      | _, _ =>
        .error (.invalidDateTime (index + 2) (columns.getD 0 "") (columns.getD 1 ""))
    | _, _ => .error (.typeError (index + 2))

/-- The dataRows.map of handleGenerate: rows are decoded in order,
threading the color map; the first throw aborts the whole batch. -/
def decodeRows : List (List String) → Nat → ColorMap →
    Except DecodeError (List ScheduleEvent × ColorMap)
  | [], _, cm => .ok ([], cm)
  | row :: rest, index, cm =>
    match decodeRow index row cm with
    | .error e => .error e
    | .ok (ev, cm') =>
      match decodeRows rest (index + 1) cm' with
      | .error e => .error e
      | .ok (evs, cm'') => .ok (ev :: evs, cm'')

/-- Batch decode of the header-stripped data rows, from an empty color
map. The trailing filter of the source keeps events whose start and end
are truthy, which every Date object is, so it keeps every row. -/
def decode (dataRows : List (List String)) : Except DecodeError (List ScheduleEvent) :=
  match decodeRows dataRows 0 [] with
  | .ok (evs, _) => .ok (evs.filter fun _ => true)
  | .error e => .error e

/-- The event collection the app displays after a generate attempt: the
decoded events on success; on any thrown decode error the catch block
clears the collection. -/
def displayedEvents (dataRows : List (List String)) : List ScheduleEvent :=
  match decode dataRows with
  | .ok evs => evs
  | .error _ => []

/-- The thrown error of a batch decode, when one is thrown (the Error
value the catch block receives and renders). -/
def decodeErr (dataRows : List (List String)) : Option DecodeError :=
  match decode dataRows with
  | .ok _ => none
  | .error e => some e

/-- The modal form state handleSave validates: title text and the two
optional datetime-local values. -/
structure FormData where
  title : String
  start : Option Ts
  stop : Option Ts
  description : String
deriving DecidableEq, Repr

/-- handleSave of the EventModal in src/components/Schedule.tsx: a save
with missing title, start or end, or with start not strictly before end,
is blocked (none); otherwise the validated record is handed to onSave. -/
def handleSave (f : FormData) : Option FormData :=
  if f.title = "" ∨ f.start = none ∨ f.stop = none then none
  else
    match f.start, f.stop with
    | some s, some e => if e.key ≤ s.key then none else some f
    | _, _ => none

/-- Pixels per hour of visible timeline (HOUR_HEIGHT). -/
def HOUR_HEIGHT : ℚ := 60

/-- Fallback window start hour when no events exist. -/
def CALENDAR_START_HOUR : Int := 6

/-- Fallback window end hour when no events exist. -/
def CALENDAR_END_HOUR : Int := 23

/-- Fixed pixel height of a collapsed gap marker. -/
def GAP_MARKER_HEIGHT : ℚ := 16

/-- Minimal idle duration, in minutes, that collapses into a gap marker. -/
def MIN_COLLAPSIBLE_GAP_MINUTES : Int := 60

/-- minutesOfDay of Schedule.tsx: getHours() * 60 + getMinutes(). -/
def minutesOfDay (t : Ts) : Int :=
  t.hour * 60 + t.minute

/-- The cropped visible window (visibleStartMin, visibleEndMin) of
Schedule.tsx: with no events the fixed fallback window, otherwise the
least event start minute floored to the hour (at least 0) and the
greatest event end minute ceiled to the hour (at most 1440). Lean
integer division is floor division, matching Math.floor, and the + 59
shift turns it into Math.ceil. -/
def visibleWindow (events : List ScheduleEvent) : Int × Int :=
  match events with
  | [] => (CALENDAR_START_HOUR * 60, CALENDAR_END_HOUR * 60)
  | e :: rest =>
    let minStart := rest.foldl (fun m x => min m (minutesOfDay x.start)) (minutesOfDay e.start)
    let maxEnd := rest.foldl (fun m x => max m (minutesOfDay x.stop)) (minutesOfDay e.stop)
    (max 0 (minStart / 60 * 60), min (24 * 60) ((maxEnd + 59) / 60 * 60))

/-- A minutes-of-day interval of the union construction. -/
structure Iv where
  start : Int
  stop : Int
deriving DecidableEq, Repr

/-- One iteration of the interval merge loop: push when the merged list
is empty or the next interval starts strictly after the last merged end,
else extend the last merged end by max. -/
def mergeStep (merged : List Iv) (iv : Iv) : List Iv :=
  match merged.getLast? with
  | none => merged ++ [iv]
  | some last =>
    if last.stop < iv.start then merged ++ [iv]
    else merged.dropLast ++ [⟨last.start, max last.stop iv.stop⟩]

/-- unionIntervals of Schedule.tsx: every event is projected to minutes
of day, clipped to the visible window, kept only when still nonempty;
the intervals are sorted by start and merged left to right. The source
uses the stable Array.prototype.sort with the start-difference
comparator; insertion sort on the non-strict start order is the same
stable ascending sort. -/
def unionIntervals (events : List ScheduleEvent) : List Iv :=
  let ws := (visibleWindow events).1
  let we := (visibleWindow events).2
  let intervals := (events.map fun e =>
      (⟨max ws (minutesOfDay e.start), min we (minutesOfDay e.stop)⟩ : Iv)).filter
    fun iv => decide (iv.start < iv.stop)
  (intervals.insertionSort fun a b => a.start ≤ b.start).foldl mergeStep []

/-- Timeline segment kinds. -/
inductive SegKind where
  | visible
  | gap
deriving DecidableEq, Repr

/-- One timeline segment: a minutes-of-day range and its rendered pixel
height. -/
structure Seg where
  kind : SegKind
  start : Int
  stop : Int
  height : ℚ
deriving DecidableEq, Repr

/-- A visible segment rendered at true scale: height is duration over 60
times HOUR_HEIGHT. -/
def visSeg (a b : Int) : Seg :=
  ⟨.visible, a, b, ((b - a : Int) : ℚ) / 60 * HOUR_HEIGHT⟩

/-- The segment emission loop of Schedule.tsx over the merged intervals:
a visible segment per merged interval; between consecutive intervals a
collapsed gap marker when the idle stretch is at least
MIN_COLLAPSIBLE_GAP_MINUTES, a true-scale visible segment when it is
shorter but positive, nothing when it is empty. -/
def buildSegs : List Iv → List Seg
  | [] => []
  | [cur] => [visSeg cur.start cur.stop]
  | cur :: next :: rest =>
    visSeg cur.start cur.stop ::
      ((let gapMinutes := next.start - cur.stop
        if 0 < gapMinutes then
          if MIN_COLLAPSIBLE_GAP_MINUTES ≤ gapMinutes then
            [⟨.gap, cur.stop, next.start, GAP_MARKER_HEIGHT⟩]
          else
            [visSeg cur.stop next.start]
        else []) ++ buildSegs (next :: rest))

/-- segments of Schedule.tsx: empty when the window is degenerate, a
single visible fallback block when no interval survives clipping,
otherwise the emission loop over the merged intervals. -/
def segmentsOf (events : List ScheduleEvent) : List Seg :=
  let ws := (visibleWindow events).1
  let we := (visibleWindow events).2
  if we ≤ ws then []
  else
    match unionIntervals events with
    | [] => [visSeg ws we]
    | iv :: ivs => buildSegs (iv :: ivs)

/-- The accumulation loop inside mapMinToY: walk the segments, adding
the full height of every segment that ends at or before the minute;
stop with a proportional partial offset inside a visible segment, with
no offset inside a gap, and with nothing once the minute is before the
segment start. -/
def mapYAux : List Seg → Int → ℚ
  | [], _ => 0
  | seg :: rest, m =>
    if m < seg.start then 0
    else if seg.stop ≤ m then seg.height + mapYAux rest m
    else
      match seg.kind with
      | .visible => ((m - seg.start : Int) : ℚ) / 60 * HOUR_HEIGHT
      | .gap => 0

/-- mapMinToY of Schedule.tsx: clamp the absolute minute into the
visible window, then accumulate across the segment list. -/
def mapMinToY (events : List ScheduleEvent) (absMin : Int) : ℚ :=
  let ws := (visibleWindow events).1
  let we := (visibleWindow events).2
  mapYAux (segmentsOf events) (max ws (min absMin we))

/-- Day of week of a Ts with in-range components, Sunday = 0 as in JS
getDay (Sakamoto congruence over the proleptic Gregorian calendar). -/
def tsGetDay (t : Ts) : Int :=
  let m := t.month0 + 1
  let y := if m < 3 then t.year - 1 else t.year
  let offsets : List Int := [0, 3, 2, 5, 0, 3, 5, 1, 4, 6, 2, 4]
  (y + y / 4 - y / 100 + y / 400 + offsets.getD (m - 1).toNat 0 + t.day) % 7

/-- Day column of an event as getEventPosition computes it: getDay minus
one, with Sunday wrapped from -1 to 6 (Monday = 0 convention). -/
def dayIndexOf (e : ScheduleEvent) : Int :=
  let d := tsGetDay e.start - 1
  if d = -1 then 6 else d

/-- The per-day bucket of eventsByDay: events whose day column is i, in
input order (the forEach pushes in order). -/
def dayEvents (events : List ScheduleEvent) (i : Int) : List ScheduleEvent :=
  events.filter fun e => decide (dayIndexOf e = i)

/-- visibleDayIndices of Schedule.tsx: Monday to Friday always; Saturday
and Sunday only when their buckets are nonempty. -/
def visibleDayIndices (events : List ScheduleEvent) : List Int :=
  [0, 1, 2, 3, 4]
    ++ (if 0 < (dayEvents events 5).length then [5] else [])
    ++ (if 0 < (dayEvents events 6).length then [6] else [])

/-- The stable ascending sort by start time applied to one day bucket
(dayEvents.sort with the getTime difference comparator, a stable
ascending sort realised here as insertion sort on the non-strict
order). -/
def sortByStart (l : List ScheduleEvent) : List ScheduleEvent :=
  l.insertionSort fun a b => a.start.key ≤ b.start.key

/-- End time of the last event placed in a column, col[col.length - 1].end;
columns are never empty in the source, the default covers the
unreachable empty case. -/
def colLastEnd (c : List ScheduleEvent) : Int :=
  match c.getLast? with
  | some e => e.stop.key
  | none => 0

/-- Placement of one event: scan the columns in order and append to the
first whose last event ends at or before the event start; open a new
column at the end when none fits. -/
def place (e : ScheduleEvent) : List (List ScheduleEvent) → List (List ScheduleEvent)
  | [] => [[e]]
  | c :: cs =>
    if colLastEnd c ≤ e.start.key then (c ++ [e]) :: cs
    else c :: place e cs

/-- The greedy column packing of eventsByDay for one day bucket: sort by
start ascending, then place each event first-fit. -/
def packDay (l : List ScheduleEvent) : List (List ScheduleEvent) :=
  (sortByStart l).foldl (fun cols e => place e cols) []

/-- Number of events of the list whose half-open active range [start,
end) contains the instant t (timestamps compared through Ts.key, as the
source compares getTime values). -/
def countAt (l : List ScheduleEvent) (t : Int) : Nat :=
  (l.filter fun e => decide (e.start.key ≤ t) && decide (t < e.stop.key)).length

/-! ### Theorems -/

/-- tsGetDay, an integer remainder modulo 7, lies in 0..6. -/
theorem tsGetDay_bounds (t : Ts) : 0 ≤ tsGetDay t ∧ tsGetDay t < 7 := by
  dsimp only [tsGetDay]
  omega

/-- Membership in a weekend bucket restated through tsGetDay: a day
index of 5 is exactly a Saturday start (getDay 6) and 6 exactly a
Sunday start (getDay 0). -/
theorem dayIndexOf_eq_iff (e : ScheduleEvent) :
    (dayIndexOf e = 5 ↔ tsGetDay e.start = 6) ∧
    (dayIndexOf e = 6 ↔ tsGetDay e.start = 0) := by
  have hb := tsGetDay_bounds e.start
  dsimp only [dayIndexOf]
  split <;> omega

/-- A day bucket is nonempty exactly when some event has that day
index. -/
theorem dayEvents_pos_iff (events : List ScheduleEvent) (i : Int) :
    0 < (dayEvents events i).length ↔ ∃ e ∈ events, dayIndexOf e = i := by
  unfold dayEvents
  rw [← List.countP_eq_length_filter, List.countP_pos_iff]
  simp

/-- C10: the rendered day columns always contain Monday through Friday
(indices 0..4), contain Saturday (5) exactly when some displayed event
starts on a Saturday, contain Sunday (6) exactly when some displayed
event starts on a Sunday, and contain nothing else. -/
theorem visibleDayIndices_weekend_rule (events : List ScheduleEvent) :
    ([0, 1, 2, 3, 4] : List Int) ⊆ visibleDayIndices events ∧
    (5 ∈ visibleDayIndices events ↔ ∃ e ∈ events, tsGetDay e.start = 6) ∧
    (6 ∈ visibleDayIndices events ↔ ∃ e ∈ events, tsGetDay e.start = 0) ∧
    visibleDayIndices events ⊆ ([0, 1, 2, 3, 4, 5, 6] : List Int) := by
  have h5 : (0 < (dayEvents events 5).length) ↔ ∃ e ∈ events, tsGetDay e.start = 6 := by
    rw [dayEvents_pos_iff]
    exact ⟨fun ⟨e, he, hd⟩ => ⟨e, he, (dayIndexOf_eq_iff e).1.1 hd⟩,
           fun ⟨e, he, hd⟩ => ⟨e, he, (dayIndexOf_eq_iff e).1.2 hd⟩⟩
  have h6 : (0 < (dayEvents events 6).length) ↔ ∃ e ∈ events, tsGetDay e.start = 0 := by
    rw [dayEvents_pos_iff]
    exact ⟨fun ⟨e, he, hd⟩ => ⟨e, he, (dayIndexOf_eq_iff e).2.1 hd⟩,
           fun ⟨e, he, hd⟩ => ⟨e, he, (dayIndexOf_eq_iff e).2.2 hd⟩⟩
  rw [← h5, ← h6]
  refine ⟨?_, ?_, ?_, ?_⟩
  · intro i hi
    exact List.mem_append_left _ (List.mem_append_left _ hi)
  · simp only [visibleDayIndices, List.mem_append]
    constructor
    · rintro ((h | h) | h)
      · exact absurd h (by decide)
      · revert h
        split
        · intro _
          assumption
        · intro h
          exact absurd h (by decide)
      · revert h
        split <;> intro h <;> exact absurd h (by decide)
    · intro hc
      refine Or.inl (Or.inr ?_)
      rw [if_pos hc]
      exact List.mem_singleton.2 rfl
  · simp only [visibleDayIndices, List.mem_append]
    constructor
    · rintro ((h | h) | h)
      · exact absurd h (by decide)
      · revert h
        split <;> intro h <;> exact absurd h (by decide)
      · revert h
        split
        · intro _
          assumption
        · intro h
          exact absurd h (by decide)
    · intro hc
      refine Or.inr ?_
      rw [if_pos hc]
      exact List.mem_singleton.2 rfl
  · intro i hi
    simp only [visibleDayIndices, List.mem_append] at hi
    simp only [List.mem_cons, List.not_mem_nil, or_false]
    rcases hi with (h | h) | h
    · simp only [List.mem_cons, List.not_mem_nil, or_false] at h
      tauto
    · revert h
      split <;> intro h <;>
        simp only [List.mem_singleton, List.not_mem_nil] at h
      tauto
    · revert h
      split <;> intro h <;>
        simp only [List.mem_singleton, List.not_mem_nil] at h
      tauto

/-- Witness for C10 at a concrete Saturday event (13 Sep 2025 is a
Saturday). -/
def satEvent : ScheduleEvent :=
  { start := ⟨2025, 8, 13, 9, 0⟩, stop := ⟨2025, 8, 13, 10, 0⟩, title := "Yoga",
    description := "", capacity := 10, total := 1, waiting := 0, price := 0,
    color := "bg-rose-200 border-rose-300 text-rose-800" }

/-- C10 instantiated: with one Saturday event the grid shows column 5
but not column 6. -/
theorem visibleDayIndices_weekend_rule_witness :
    5 ∈ visibleDayIndices [satEvent] ∧ ¬ 6 ∈ visibleDayIndices [satEvent] := by
  obtain ⟨_, h5, h6, _⟩ := visibleDayIndices_weekend_rule [satEvent]
  constructor
  · exact h5.2 ⟨satEvent, by decide, by decide⟩
  · intro hmem
    obtain ⟨e, he, hday⟩ := h6.1 hmem
    rw [List.mem_singleton] at he
    subst he
    exact absurd hday (by decide)

/-- C7: format detection reads only the first line, and picks CSV
exactly when that line holds strictly more commas than tabs (ties and
zero counts both give TSV). -/
theorem detectFormat_first_line_only (t1 t2 : String)
    (hsame : firstLine t1 = firstLine t2) :
    detectFormat t1 = detectFormat t2 ∧
    (detectFormat t1 = .csv ↔
      countChar '\t' (firstLine t1) < countChar ',' (firstLine t1)) ∧
    (detectFormat t1 = .tsv ↔
      countChar ',' (firstLine t1) ≤ countChar '\t' (firstLine t1)) := by
  unfold detectFormat
  rw [hsame]
  refine ⟨rfl, ?_, ?_⟩ <;> split <;> rename_i hc <;> simp_all

/-- C7 instantiated: two inputs sharing the first line "a,b" (one with a
tab further down) both detect as CSV. -/
theorem detectFormat_first_line_only_witness :
    detectFormat "a,b\nx\ty" = detectFormat "a,b" ∧ detectFormat "a,b" = .csv := by
  obtain ⟨heq, hcsv, _⟩ := detectFormat_first_line_only "a,b\nx\ty" "a,b" (by decide)
  exact ⟨heq, heq ▸ hcsv.2 (by decide)⟩

/-- A data row of the bulk format whose start and end timestamps are
identical (zero duration). -/
def c4row : List String :=
  ["1/9/2025 9:00", "1/9/2025 9:00", "T", "", "0", "0", "0", "0"]

/-- C4 counterexample: the bulk parser accepts a zero-duration row; the
decoded collection holds one event with start equal to end, so rows
violating start strictly before end are not rejected at decode time. -/
theorem decode_keeps_zero_duration_row :
    (displayedEvents [c4row]).length = 1 ∧
    ∀ e ∈ displayedEvents [c4row], e.start = e.stop := by
  exact ⟨by decide, by decide⟩

/-- C4 as amended: manual create/edit is validated (missing fields or
end at or before start block the save, leaving every record untouched),
but the bulk parser performs no duration check and accepts a
zero-duration row. -/
theorem start_lt_end_only_at_edit_time :
    (∀ f : FormData, ∀ s e : Ts, f.start = some s → f.stop = some e →
      e.key ≤ s.key → handleSave f = none) ∧
    (∀ f : FormData, f.title = "" ∨ f.start = none ∨ f.stop = none →
      handleSave f = none) ∧
    ((displayedEvents [c4row]).length = 1 ∧
      ∀ e ∈ displayedEvents [c4row], ¬ e.start.key < e.stop.key) := by
  refine ⟨?_, ?_, by decide, by decide⟩
  · intro f s e hs he hle
    unfold handleSave
    split
    · rfl
    · rw [hs, he]
      simp [hle]
  · intro f h
    unfold handleSave
    split
    · rfl
    · rename_i hnot
      exact absurd h hnot

/-- Shape conditions under which a data row decodes without a throw:
enough columns, both date+time fields split into at least two
whitespace parts, and both parseDate calls succeed. -/
def rowDecodes (row : List String) : Bool :=
  decide (8 ≤ row.length) &&
  decide (2 ≤ (jsSplitWs (row.getD 0 "")).length) &&
  decide (2 ≤ (jsSplitWs (row.getD 1 "")).length) &&
  (parseDate ((jsSplitWs (row.getD 0 "")).getD 0 "")
    ((jsSplitWs (row.getD 0 "")).getD 1 "")).isSome &&
  (parseDate ((jsSplitWs (row.getD 1 "")).getD 0 "")
    ((jsSplitWs (row.getD 1 "")).getD 1 "")).isSome

/-- A row satisfying rowDecodes decodes to an event whose numeric fields
are the coerced field values, for any index and color map. -/
theorem decodeRow_ok_shape (index : Nat) (cm : ColorMap) (row : List String)
    (hr : rowDecodes row = true) :
    ∃ ev cm2, decodeRow index row cm = .ok (ev, cm2) ∧
      ev.capacity = parseIntOr0 (row.getD 4 "") ∧
      ev.total = parseIntOr0 (row.getD 5 "") ∧
      ev.waiting = parseIntOr0 (row.getD 6 "") ∧
      ev.price = parseFloatOr0 (row.getD 7 "") ∧
      ev.title = row.getD 2 "" := by
  unfold rowDecodes at hr
  simp only [Bool.and_eq_true, decide_eq_true_eq] at hr
  obtain ⟨⟨⟨⟨h8, hs0⟩, hs1⟩, hd0⟩, hd1⟩ := hr
  unfold decodeRow
  rw [if_neg (by omega)]
  rcases hL0 : jsSplitWs (row.getD 0 "") with _ | ⟨sd, l0⟩
  · rw [hL0] at hs0
    simp at hs0
  rcases l0 with _ | ⟨st, r0⟩
  · rw [hL0] at hs0
    simp at hs0
  rcases hL1 : jsSplitWs (row.getD 1 "") with _ | ⟨ed, l1⟩
  · rw [hL1] at hs1
    simp at hs1
  rcases l1 with _ | ⟨et, r1⟩
  · rw [hL1] at hs1
    simp at hs1
  rw [hL0] at hd0
  rw [hL1] at hd1
  simp only [List.getD_cons_zero, List.getD_cons_succ] at hd0 hd1
  obtain ⟨t0, ht0⟩ := Option.isSome_iff_exists.1 hd0
  obtain ⟨t1, ht1⟩ := Option.isSome_iff_exists.1 hd1
  dsimp only
  rw [ht0, ht1]
  exact ⟨_, _, rfl, rfl, rfl, rfl, rfl, rfl⟩

/-- C8: numeric fields never fail a row: any row passing the column and
date checks decodes, its capacity, total and waiting fields are the
parseInt-or-0 coercions of columns 4 to 6 and its price the
parseFloat-or-0 coercion of column 7; an unparseable value coerces to 0. -/
theorem decode_numeric_fields_coerce (index : Nat) (cm : ColorMap) (row : List String)
    (hr : rowDecodes row = true) :
    (∃ ev cm2, decodeRow index row cm = .ok (ev, cm2) ∧
      ev.capacity = parseIntOr0 (row.getD 4 "") ∧
      ev.total = parseIntOr0 (row.getD 5 "") ∧
      ev.waiting = parseIntOr0 (row.getD 6 "") ∧
      ev.price = parseFloatOr0 (row.getD 7 "")) ∧
    (∀ s, jsParseInt s = none → parseIntOr0 s = 0) ∧
    (∀ s, jsParseFloat s = none → parseFloatOr0 s = 0) := by
  refine ⟨?_, ?_, ?_⟩
  · obtain ⟨ev, cm2, hok, hc, ht, hw, hp, _⟩ := decodeRow_ok_shape index cm row hr
    exact ⟨ev, cm2, hok, hc, ht, hw, hp⟩
  · intro s h
    unfold parseIntOr0
    rw [h]
  · intro s h
    unfold parseFloatOr0
    rw [h]

/-- The spec scenario row whose capacity field is "abc". -/
def c8row : List String :=
  ["1/9/2025 9:00", "1/9/2025 10:00", "T", "", "abc", "0", "0", "x"]

/-- C8 instantiated: the "abc" capacity row decodes with capacity 0 and
no error. -/
theorem decode_numeric_fields_coerce_witness :
    ∃ ev cm2, decodeRow 0 c8row [] = .ok (ev, cm2) ∧ ev.capacity = 0 := by
  obtain ⟨⟨ev, cm2, hok, hc, _, _, _⟩, _, _⟩ :=
    decode_numeric_fields_coerce 0 [] c8row (by decide)
  refine ⟨ev, cm2, hok, ?_⟩
  rw [hc]
  decide

/-- An 8-column data row whose start field has a malformed date, placed
before a 6-column row. -/
def c5row0 : List String :=
  ["a/b/c 1:2", "1/9/2025 10:00", "T", "", "0", "0", "0", "0"]

/-- A 6-column data row. -/
def c5row1 : List String :=
  ["x", "y", "z", "w", "u", "v"]

/-- C5 counterexample: the first short row sits at data index 1 (so the
claim predicts the message for row 3 with 6 fields), but an earlier row
with enough columns and an invalid date aborts the batch first, with the
invalid date/time message instead. -/
theorem short_row_error_preempted :
    c5row1.length = 6 ∧ 8 ≤ c5row0.length ∧
    decodeErr [c5row0, c5row1] =
      some (.invalidDateTime 2 "a/b/c 1:2" "1/9/2025 10:00") ∧
    decodeErr [c5row0, c5row1] ≠ some (.notEnoughColumns 3 6) ∧
    (∀ e, decodeErr [c5row0, c5row1] = some e →
      renderError e ≠ some "Row 3: Not enough columns. Expected 8, found 6.") := by
  exact ⟨by decide, by decide, by decide, by decide, by decide⟩

/-- A short row fails decodeRows with the not-enough-columns error named
after its position, provided every earlier row decodes; stated for an
arbitrary starting index and color map to support the induction. -/
theorem decodeRows_short_row (rows : List (List String)) :
    ∀ (i n : Nat) (cm : ColorMap) (row : List String),
      rows.getD i [] = row → i < rows.length → row.length < 8 →
      (∀ j, j < i → rowDecodes (rows.getD j []) = true) →
      decodeRows rows n cm = .error (.notEnoughColumns (n + i + 2) row.length) := by
  induction rows with
  | nil =>
    intro i n cm row _ hi _ _
    exact absurd hi (by simp)
  | cons r rest ih =>
    intro i n cm row hget hi hshort hprev
    cases i with
    | zero =>
      rw [List.getD_cons_zero] at hget
      subst hget
      unfold decodeRows decodeRow
      rw [if_pos hshort]
    | succ i =>
      have hr : rowDecodes r = true := by
        have := hprev 0 (by omega)
        rwa [List.getD_cons_zero] at this
      obtain ⟨ev, cm2, hok, _⟩ := decodeRow_ok_shape n cm r hr
      unfold decodeRows
      rw [hok]
      dsimp only
      have hrec := ih i (n + 1) cm2 row
        (by rwa [List.getD_cons_succ] at hget)
        (by simp at hi; omega) hshort
        (fun j hj => by
          have := hprev (j + 1) (by omega)
          rwa [List.getD_cons_succ] at this)
      rw [hrec]
      dsimp only
      have heq : n + 1 + i + 2 = n + (i + 1) + 2 := by omega
      rw [heq]

/-- C5 as amended: when the first data row with fewer than 8 fields sits
at 0-based index i and every earlier row decodes cleanly, the batch
fails with exactly the claimed message for row i + 2 and the displayed
collection is empty. Without that proviso an earlier invalid-date row
aborts the batch with its own message first. -/
theorem decode_short_row_error (rows : List (List String)) (i : Nat) (row : List String)
    (hget : rows.getD i [] = row) (hi : i < rows.length) (hshort : row.length < 8)
    (hprev : ∀ j, j < i → rowDecodes (rows.getD j []) = true) :
    decodeErr rows = some (.notEnoughColumns (i + 2) row.length) ∧
    renderError (.notEnoughColumns (i + 2) row.length) =
      some ("Row " ++ toString (i + 2) ++ ": Not enough columns. Expected 8, found "
        ++ toString row.length ++ ".") ∧
    displayedEvents rows = [] := by
  have h := decodeRows_short_row rows i 0 [] row hget hi hshort hprev
  rw [Nat.zero_add] at h
  refine ⟨?_, rfl, ?_⟩
  · unfold decodeErr decode
    rw [h]
  · unfold displayedEvents decode
    rw [h]

/-- C5 amended instantiated: a clean first row followed by the 6-column
row fails with the row 3 message and leaves the display empty. -/
theorem decode_short_row_error_witness :
    decodeErr [c8row, c5row1] = some (.notEnoughColumns 3 6) ∧
    renderError (.notEnoughColumns 3 6) =
      some "Row 3: Not enough columns. Expected 8, found 6." ∧
    displayedEvents [c8row, c5row1] = [] := by
  have h := decode_short_row_error [c8row, c5row1] 1 c5row1 (by decide) (by decide)
    (by decide) (by intro j hj; interval_cases j; decide)
  exact ⟨h.1, by decide, h.2.2⟩

/-- The validity condition exactly as the claim words it, stated from
the claim text for comparison with the source parseDate: after the
whitespace split of the combined field, the five numeric components
(day, month, year from the slash parts of the date; hour, minute from
the colon parts of the time) each parse as a valid integer. -/
def fiveComponentsValid (field : String) : Bool :=
  let parts := jsSplitWs field
  let dps := jsSplitChar '/' (parts.getD 0 "")
  let tps := jsSplitChar ':' (parts.getD 1 "")
  (jsParseInt (dps.getD 0 "")).isSome && (jsParseInt (dps.getD 1 "")).isSome &&
    (jsParseInt (dps.getD 2 "")).isSome && (jsParseInt (tps.getD 0 "")).isSome &&
    (jsParseInt (tps.getD 1 "")).isSome

/-- A data row whose start field date part splits into four slash
components, the first three being valid integers. -/
def c6row : List String :=
  ["1/2/3/4 5:06", "1/9/2025 10:00", "T", "", "0", "0", "0", "0"]

/-- C6 counterexample: every one of the five numeric components of both
timestamps of this row is a valid integer (day 1, month 2, year 3, hour
5, minute 06, and the intact end field), yet the decoder raises the
invalid date/time error, because the date part splits into four slash
components rather than three. -/
theorem invalid_date_beyond_components :
    fiveComponentsValid "1/2/3/4 5:06" = true ∧
    fiveComponentsValid "1/9/2025 10:00" = true ∧
    decodeErr [c6row] = some (.invalidDateTime 2 "1/2/3/4 5:06" "1/9/2025 10:00") := by
  exact ⟨by decide, by decide, by decide⟩

/-- C6 as amended: a combined field (with both whitespace parts present
and at least 8 columns) raises the row-level invalid date/time error
exactly when the date part does not split on "/" into exactly three
components, or the time part does not split on ":" into exactly two, or
one of the five numeric components is not a valid integer; when the
shapes and all five components are valid the timestamp is built with the
month converted from 1-indexed to 0-indexed. -/
theorem parseDate_characterisation (d t : String) :
    (parseDate d t = none ↔
      ¬((jsSplitChar '/' d).length = 3 ∧ (jsSplitChar ':' t).length = 2 ∧
        (jsParseInt ((jsSplitChar '/' d).getD 0 "")).isSome = true ∧
        (jsParseInt ((jsSplitChar '/' d).getD 1 "")).isSome = true ∧
        (jsParseInt ((jsSplitChar '/' d).getD 2 "")).isSome = true ∧
        (jsParseInt ((jsSplitChar ':' t).getD 0 "")).isSome = true ∧
        (jsParseInt ((jsSplitChar ':' t).getD 1 "")).isSome = true)) ∧
    (∀ day month year hour minute : Int,
      jsParseInt ((jsSplitChar '/' d).getD 0 "") = some day →
      jsParseInt ((jsSplitChar '/' d).getD 1 "") = some month →
      jsParseInt ((jsSplitChar '/' d).getD 2 "") = some year →
      jsParseInt ((jsSplitChar ':' t).getD 0 "") = some hour →
      jsParseInt ((jsSplitChar ':' t).getD 1 "") = some minute →
      (jsSplitChar '/' d).length = 3 → (jsSplitChar ':' t).length = 2 →
      parseDate d t = some ⟨year, month - 1, day, hour, minute⟩) ∧
    (∀ index row cm, ¬ (row.length : Nat) < 8 →
      2 ≤ (jsSplitWs (row.getD 0 "")).length → 2 ≤ (jsSplitWs (row.getD 1 "")).length →
      (decodeRow index row cm =
          .error (.invalidDateTime (index + 2) (row.getD 0 "") (row.getD 1 "")) ↔
        (parseDate ((jsSplitWs (row.getD 0 "")).getD 0 "")
            ((jsSplitWs (row.getD 0 "")).getD 1 "") = none ∨
         parseDate ((jsSplitWs (row.getD 1 "")).getD 0 "")
            ((jsSplitWs (row.getD 1 "")).getD 1 "") = none))) := by
  refine ⟨?_, ?_, ?_⟩
  · unfold parseDate
    dsimp only
    split
    · rename_i hc
      split
      · rename_i day month year hour minute h1 h2 h3 h4 h5
        simp only [h1, h2, h3, h4, h5, Option.isSome_some]
        simp [hc.1, hc.2]
      · rename_i hnone
        simp only [eq_self_iff_true, true_iff]
        intro hall
        obtain ⟨_, _, hi1, hi2, hi3, hi4, hi5⟩ := hall
        obtain ⟨v1, hv1⟩ := Option.isSome_iff_exists.1 hi1
        obtain ⟨v2, hv2⟩ := Option.isSome_iff_exists.1 hi2
        obtain ⟨v3, hv3⟩ := Option.isSome_iff_exists.1 hi3
        obtain ⟨v4, hv4⟩ := Option.isSome_iff_exists.1 hi4
        obtain ⟨v5, hv5⟩ := Option.isSome_iff_exists.1 hi5
        exact hnone v1 v2 v3 v4 v5 hv1 hv2 hv3 hv4 hv5
    · rename_i hc
      simp only [eq_self_iff_true, true_iff]
      exact fun hall => hc ⟨hall.1, hall.2.1⟩
  · intro day month year hour minute h1 h2 h3 h4 h5 hl1 hl2
    unfold parseDate
    rw [if_pos ⟨hl1, hl2⟩, h1, h2, h3, h4, h5]
  · intro index row cm h8 hs0 hs1
    unfold decodeRow
    rw [if_neg h8]
    rcases hL0 : jsSplitWs (row.getD 0 "") with _ | ⟨sd, _ | ⟨st, r0⟩⟩
    · rw [hL0] at hs0
      simp at hs0
    · rw [hL0] at hs0
      simp at hs0
    rcases hL1 : jsSplitWs (row.getD 1 "") with _ | ⟨ed, _ | ⟨et, r1⟩⟩
    · rw [hL1] at hs1
      simp at hs1
    · rw [hL1] at hs1
      simp at hs1
    simp only [List.getD_cons_zero, List.getD_cons_succ]
    rcases h0 : parseDate sd st with _ | t0 <;> rcases h1 : parseDate ed et with _ | t1 <;>
      simp

/-- The palette pair at an index: background/border classes paired with
the text class. -/
def palettePair (i : Nat) : String × String :=
  (COLORS.getD i "", TEXT_COLORS.getD i "")

/-- The colors handleGenerate resolves for the successive titles of one
batch: getColor on each title in order, threading the shared map. -/
def runColors : List String → ColorMap → List (String × String) × ColorMap
  | [], cm => ([], cm)
  | t :: ts, cm =>
    let rc := getColor t cm
    let rest := runColors ts rc.2
    (rc.1 :: rest.1, rest.2)

/-- One step of collecting distinct titles in first-seen order. -/
def seenStep (acc : List String) (t : String) : List String :=
  if t ∈ acc then acc else acc ++ [t]

/-- The distinct titles of a batch, in the order they are first seen. -/
def firstSeen (ts : List String) : List String :=
  ts.foldl seenStep []

/-- mapHas tests membership among the stored titles. -/
theorem mapHas_iff (m : ColorMap) (t : String) :
    mapHas m t = true ↔ t ∈ m.map Prod.fst := by
  unfold mapHas
  rw [List.any_eq_true]
  simp [eq_comm]

/-- Folding seenStep only ever appends, so the accumulator is a prefix
of the result. -/
theorem seenStep_foldl_prefix (ts : List String) :
    ∀ ks : List String, ∃ suf, ts.foldl seenStep ks = ks ++ suf := by
  induction ts with
  | nil => exact fun ks => ⟨[], by simp⟩
  | cons t ts ih =>
    intro ks
    rw [List.foldl_cons]
    by_cases hmem : t ∈ ks
    · rw [show seenStep ks t = ks from by unfold seenStep; rw [if_pos hmem]]
      exact ih ks
    · rw [show seenStep ks t = ks ++ [t] from by unfold seenStep; rw [if_neg hmem]]
      obtain ⟨suf, hsuf⟩ := ih (ks ++ [t])
      exact ⟨[t] ++ suf, by rw [hsuf, List.append_assoc]⟩

/-- Membership in a seenStep fold: an element is there exactly when it
was in the accumulator or the folded list. -/
theorem mem_seenStep_foldl (ts : List String) :
    ∀ (ks : List String) (x : String),
      x ∈ ts.foldl seenStep ks ↔ x ∈ ks ∨ x ∈ ts := by
  induction ts with
  | nil => simp
  | cons t ts ih =>
    intro ks x
    rw [List.foldl_cons]
    by_cases hmem : t ∈ ks
    · rw [show seenStep ks t = ks from by unfold seenStep; rw [if_pos hmem]]
      rw [ih]
      constructor
      · rintro (h | h)
        · exact Or.inl h
        · exact Or.inr (List.mem_cons_of_mem _ h)
      · rintro (h | h)
        · exact Or.inl h
        · rcases List.mem_cons.1 h with h | h
          · exact Or.inl (h ▸ hmem)
          · exact Or.inr h
    · rw [show seenStep ks t = ks ++ [t] from by unfold seenStep; rw [if_neg hmem]]
      rw [ih]
      simp only [List.mem_append, List.mem_singleton, List.mem_cons]
      tauto

/-- A seenStep fold from a duplicate-free accumulator stays
duplicate-free. -/
theorem seenStep_foldl_nodup (ts : List String) :
    ∀ ks : List String, ks.Nodup → (ts.foldl seenStep ks).Nodup := by
  induction ts with
  | nil => exact fun ks h => h
  | cons t ts ih =>
    intro ks hks
    rw [List.foldl_cons]
    by_cases hmem : t ∈ ks
    · rw [show seenStep ks t = ks from by unfold seenStep; rw [if_pos hmem]]
      exact ih ks hks
    · rw [show seenStep ks t = ks ++ [t] from by unfold seenStep; rw [if_neg hmem]]
      refine ih (ks ++ [t]) ?_
      simp [List.nodup_append, hks, hmem]

/-- indexOf looks in the left part first. -/
theorem indexOf_append_left (t : String) (l1 l2 : List String) (h : t ∈ l1) :
    (l1 ++ l2).indexOf t = l1.indexOf t := by
  induction l1 with
  | nil => exact absurd h (by simp)
  | cons a l1 ih =>
    rw [List.cons_append, List.indexOf_cons, List.indexOf_cons]
    by_cases ha : a = t
    · simp [ha]
    · have : (a == t) = false := by simp [ha]
      rw [this]
      simp only [cond_false]
      rcases List.mem_cons.1 h with h | h
      · exact absurd h.symm ha
      · rw [ih h]

/-- indexOf of a fresh element appended at the end is the old length. -/
theorem indexOf_append_fresh (t : String) (l1 l2 : List String) (h : t ∉ l1) :
    (l1 ++ t :: l2).indexOf t = l1.length := by
  induction l1 with
  | nil =>
    simp [List.indexOf_cons]
  | cons a l1 ih =>
    rw [List.cons_append, List.indexOf_cons]
    have ha : (a == t) = false := by
      simp only [beq_eq_false_iff_ne, ne_eq]
      intro he
      exact h (he ▸ List.mem_cons_self a l1)
    rw [ha]
    simp only [cond_false, List.length_cons]
    rw [ih fun hm => h (List.mem_cons_of_mem _ hm)]

/-- What mapGet returns when the stored values follow a ranking
function of the entry position. -/
theorem mapGet_rank (m : ColorMap) (f : Nat → String × String)
    (hvals : ∀ k, ∀ hk : k < m.length, (m.get ⟨k, hk⟩).2 = f k)
    (t : String) (hmem : t ∈ m.map Prod.fst) :
    mapGet m t = some (f ((m.map Prod.fst).indexOf t)) := by
  induction m generalizing f with
  | nil => exact absurd hmem (by simp)
  | cons p rest ih =>
    unfold mapGet
    by_cases hp : p.1 = t
    · rw [List.find?_cons_of_pos _ (by simp [hp])]
      have h0 := hvals 0 (by simp)
      simp only [List.get] at h0
      rw [List.map_cons, List.indexOf_cons]
      simp only [hp, beq_self_eq_true, cond_true, Option.map_some']
      rw [h0]
    · rw [List.find?_cons_of_neg _ (by simp [hp])]
      have hmem2 : t ∈ rest.map Prod.fst := by
        rcases List.mem_map.1 hmem with ⟨q, hq, hqt⟩
        rcases List.mem_cons.1 hq with h | h
        · exact absurd (h ▸ hqt) hp
        · exact hqt ▸ List.mem_map_of_mem _ h
      have := ih (fun k => f (k + 1))
        (fun k hk => hvals (k + 1) (by simpa using Nat.succ_lt_succ hk)) hmem2
      unfold mapGet at this
      rw [this]
      rw [List.map_cons, List.indexOf_cons]
      have hne : (p.1 == t) = false := by simp [hp]
      rw [hne]
      simp only [cond_false]

/-- getColor on an already-seen title returns the stored pair and keeps
the map. -/
theorem getColor_mem (m : ColorMap) (t : String)
    (hvals : ∀ k, ∀ hk : k < m.length, (m.get ⟨k, hk⟩).2 = palettePair (k % 8))
    (hmem : t ∈ m.map Prod.fst) :
    getColor t m = (palettePair ((m.map Prod.fst).indexOf t % 8), m) := by
  unfold getColor
  rw [if_pos ((mapHas_iff m t).2 hmem)]
  rw [mapGet_rank m (fun k => palettePair (k % 8)) hvals t hmem]
  rfl

/-- getColor on a fresh title assigns the palette pair at the map size
modulo 8 and appends the new entry. -/
theorem getColor_fresh (m : ColorMap) (t : String) (hmem : ¬ t ∈ m.map Prod.fst) :
    getColor t m =
      (palettePair (m.length % 8), m ++ [(t, palettePair (m.length % 8))]) := by
  unfold getColor
  rw [if_neg fun h => hmem ((mapHas_iff m t).1 h)]
  rfl

/-- Behaviour of a color run from any canonically-valued map: the final
keys are the seenStep fold of the starting keys, values stay canonical,
and each returned color is the palette pair at the rank of the title
among the final keys. -/
theorem runColors_spec (ts : List String) : ∀ m : ColorMap,
    (∀ k, ∀ hk : k < m.length, (m.get ⟨k, hk⟩).2 = palettePair (k % 8)) →
    ((runColors ts m).2.map Prod.fst = ts.foldl seenStep (m.map Prod.fst)) ∧
    (∀ k, ∀ hk : k < (runColors ts m).2.length,
      ((runColors ts m).2.get ⟨k, hk⟩).2 = palettePair (k % 8)) ∧
    (∀ i, ∀ hi : i < ts.length,
      (runColors ts m).1.getD i ("", "") =
        palettePair ((ts.foldl seenStep (m.map Prod.fst)).indexOf (ts.get ⟨i, hi⟩) % 8)) := by
  induction ts with
  | nil =>
    intro m hvals
    refine ⟨by simp [runColors], fun k hk => hvals k hk, fun i hi => absurd hi (by simp)⟩
  | cons t ts ih =>
    intro m hvals
    by_cases hmem : t ∈ m.map Prod.fst
    · have hg := getColor_mem m t hvals hmem
      have hstep : seenStep (m.map Prod.fst) t = m.map Prod.fst := by
        unfold seenStep
        rw [if_pos hmem]
      obtain ⟨ih1, ih2, ih3⟩ := ih m hvals
      have hrun : runColors (t :: ts) m =
          ((palettePair ((m.map Prod.fst).indexOf t % 8)) :: (runColors ts m).1,
            (runColors ts m).2) := by
        simp only [runColors, hg]
      rw [hrun, List.foldl_cons, hstep]
      refine ⟨ih1, ih2, ?_⟩
      intro i hi
      cases i with
      | zero =>
        rw [List.getD_cons_zero]
        obtain ⟨suf, hsuf⟩ := seenStep_foldl_prefix ts (m.map Prod.fst)
        have : (ts.foldl seenStep (m.map Prod.fst)).indexOf (List.get (t :: ts) ⟨0, hi⟩) =
            (m.map Prod.fst).indexOf t := by
          simp only [List.get]
          rw [hsuf]
          exact indexOf_append_left t _ suf hmem
        rw [this]
      | succ i =>
        rw [List.getD_cons_succ]
        have hi2 : i < ts.length := by simpa using Nat.lt_of_succ_lt_succ hi
        rw [ih3 i hi2]
        rfl
    · have hg := getColor_fresh m t hmem
      have hstep : seenStep (m.map Prod.fst) t = m.map Prod.fst ++ [t] := by
        unfold seenStep
        rw [if_neg hmem]
      set q : String × String × String := (t, palettePair (m.length % 8)) with hq
      have hvals2 : ∀ k, ∀ hk : k < (m ++ [q]).length,
          ((m ++ [q]).get ⟨k, hk⟩).2 = palettePair (k % 8) := by
        intro k hk
        have hk2 : k < m.length + 1 := by simpa using hk
        rcases Nat.lt_or_ge k m.length with hlt | hge
        · rw [List.get_eq_getElem, List.getElem_append_left hlt]
          have hv := hvals k hlt
          rw [List.get_eq_getElem] at hv
          exact hv
        · have hkeq : k = m.length := by omega
          have : ((m ++ [q]).get ⟨k, hk⟩) = q := by
            rw [List.get_eq_getElem]
            rw [List.getElem_append_right hge]
            subst hkeq
            simp
          rw [this, hq, hkeq]
      obtain ⟨ih1, ih2, ih3⟩ := ih (m ++ [q]) hvals2
      have hkeys : (m ++ [q]).map Prod.fst = m.map Prod.fst ++ [t] := by
        simp [hq]
      have hrun : runColors (t :: ts) m =
          ((palettePair (m.length % 8)) :: (runColors ts (m ++ [q])).1,
            (runColors ts (m ++ [q])).2) := by
        simp only [runColors, hg, hq]
      rw [hrun, List.foldl_cons, hstep, ← hkeys]
      refine ⟨ih1, ih2, ?_⟩
      intro i hi
      cases i with
      | zero =>
        rw [List.getD_cons_zero]
        obtain ⟨suf, hsuf⟩ := seenStep_foldl_prefix ts ((m ++ [q]).map Prod.fst)
        have : (ts.foldl seenStep ((m ++ [q]).map Prod.fst)).indexOf
            (List.get (t :: ts) ⟨0, hi⟩) = m.length := by
          simp only [List.get]
          rw [hsuf, hkeys, List.append_assoc, List.singleton_append]
          rw [indexOf_append_fresh t _ _ hmem]
          simp
        rw [this]
      | succ i =>
        rw [List.getD_cons_succ]
        have hi2 : i < ts.length := by simpa using Nat.lt_of_succ_lt_succ hi
        rw [ih3 i hi2]
        rfl

/-- For a title first seen at position i, its rank among the distinct
titles of the whole batch is the number of distinct titles seen before
position i. -/
theorem firstSeen_indexOf_of_first (ts : List String) (i : Nat) (hi : i < ts.length)
    (hf : ts.get ⟨i, hi⟩ ∉ ts.take i) :
    (firstSeen ts).indexOf (ts.get ⟨i, hi⟩) = (firstSeen (ts.take i)).length := by
  have hsplit : ts = ts.take i ++ ts.drop i := (List.take_append_drop i ts).symm
  have hdrop : ts.drop i = ts.get ⟨i, hi⟩ :: ts.drop (i + 1) := by
    rw [List.get_eq_getElem]
    exact List.drop_eq_getElem_cons hi
  have hnotfs : ts.get ⟨i, hi⟩ ∉ firstSeen (ts.take i) := by
    intro hmem
    rcases (mem_seenStep_foldl (ts.take i) [] _).1 hmem with h | h
    · exact absurd h (by simp)
    · exact hf h
  have hexp : firstSeen ts =
      List.foldl seenStep (List.foldl seenStep [] (ts.take i)) (ts.drop i) := by
    unfold firstSeen
    rw [← List.foldl_append, List.take_append_drop]
  have hstep2 : seenStep (List.foldl seenStep [] (ts.take i)) (ts.get ⟨i, hi⟩) =
      List.foldl seenStep [] (ts.take i) ++ [ts.get ⟨i, hi⟩] := by
    unfold seenStep
    split
    · rename_i hcon
      exact absurd hcon hnotfs
    · rfl
  rw [hexp, hdrop, List.foldl_cons, hstep2]
  obtain ⟨suf, hsuf⟩ := seenStep_foldl_prefix (ts.drop (i + 1))
    (List.foldl seenStep [] (ts.take i) ++ [ts.get ⟨i, hi⟩])
  rw [hsuf, List.append_assoc, List.singleton_append]
  exact indexOf_append_fresh _ _ _ hnotfs

/-- C9: in one batch decode from an empty map, the stored keys are
exactly the distinct titles in first-seen order, each assigned exactly
once; the color of every event is the palette pair at the rank of its
title modulo 8; a title first seen at position i gets the palette index
equal to the number of distinct titles seen before it modulo 8, and
repeated titles always receive the same pair. -/
theorem batch_color_assignment (ts : List String) :
    ((runColors ts []).2.map Prod.fst = firstSeen ts) ∧
    ((runColors ts []).2.map Prod.fst).Nodup ∧
    (∀ i, ∀ hi : i < ts.length,
      (runColors ts []).1.getD i ("", "") =
        palettePair ((firstSeen ts).indexOf (ts.get ⟨i, hi⟩) % 8)) ∧
    (∀ i, ∀ hi : i < ts.length, ts.get ⟨i, hi⟩ ∉ ts.take i →
      (runColors ts []).1.getD i ("", "") =
        palettePair ((firstSeen (ts.take i)).length % 8)) ∧
    (∀ i j, ∀ hi : i < ts.length, ∀ hj : j < ts.length,
      ts.get ⟨i, hi⟩ = ts.get ⟨j, hj⟩ →
      (runColors ts []).1.getD i ("", "") = (runColors ts []).1.getD j ("", "")) := by
  obtain ⟨h1, _, h3⟩ := runColors_spec ts [] (fun k hk => absurd hk (by simp))
  have hfs : ts.foldl seenStep (List.map Prod.fst ([] : ColorMap)) = firstSeen ts := rfl
  rw [hfs] at h1 h3
  refine ⟨h1, ?_, h3, ?_, ?_⟩
  · rw [h1]
    exact seenStep_foldl_nodup ts [] List.nodup_nil
  · intro i hi hfirst
    rw [h3 i hi, firstSeen_indexOf_of_first ts i hi hfirst]
  · intro i j hi hj heq
    rw [h3 i hi, h3 j hj, heq]

/-- C9 instantiated at the spec scenario titles: Yoga then Pilates get
palette entries 0 and 1, and a repeated Yoga keeps entry 0. -/
theorem batch_color_assignment_witness :
    (runColors ["Yoga", "Pilates", "Yoga"] []).1.getD 0 ("", "") = palettePair 0 ∧
    (runColors ["Yoga", "Pilates", "Yoga"] []).1.getD 1 ("", "") = palettePair 1 ∧
    (runColors ["Yoga", "Pilates", "Yoga"] []).1.getD 2 ("", "") =
      (runColors ["Yoga", "Pilates", "Yoga"] []).1.getD 0 ("", "") ∧
    palettePair 0 ≠ palettePair 1 := by
  obtain ⟨_, _, h3, h4, h5⟩ := batch_color_assignment ["Yoga", "Pilates", "Yoga"]
  refine ⟨?_, ?_, ?_, by decide⟩
  · have := h4 0 (by decide) (by decide)
    rw [this]
    decide
  · have := h4 1 (by decide) (by decide)
    rw [this]
    decide
  · exact h5 2 0 (by decide) (by decide) (by decide)

/-- Invariants of the interval merge loop: folding sorted nonempty
intervals keeps every merged interval nonempty and the merged list
strictly separated (each ends strictly before the next starts). -/
theorem mergeFold_inv (l : List Iv) :
    ∀ acc : List Iv,
    (∀ iv ∈ l, iv.start < iv.stop) →
    l.Pairwise (fun a b => a.start ≤ b.start) →
    (∀ iv ∈ acc, iv.start < iv.stop) →
    acc.Chain' (fun a b => a.stop < b.start) →
    (∀ x ∈ acc.getLast?, ∀ iv ∈ l, x.start ≤ iv.start) →
    (∀ iv ∈ l.foldl mergeStep acc, iv.start < iv.stop) ∧
    (l.foldl mergeStep acc).Chain' (fun a b => a.stop < b.start) := by
  induction l with
  | nil => exact fun acc _ _ hv hc _ => ⟨hv, hc⟩
  | cons iv l ih =>
    intro acc hvl hsl hva hca hlast
    rw [List.foldl_cons]
    have hiv : iv.start < iv.stop := hvl iv (List.mem_cons_self _ _)
    have hsl2 : l.Pairwise (fun a b => a.start ≤ b.start) := (List.pairwise_cons.1 hsl).2
    have hivle : ∀ x ∈ l, iv.start ≤ x.start := (List.pairwise_cons.1 hsl).1
    have hvl2 : ∀ x ∈ l, x.start < x.stop := fun x hx => hvl x (List.mem_cons_of_mem _ hx)
    rcases hacc : acc.getLast? with _ | last
    · have hnil : acc = [] := List.getLast?_eq_none_iff.1 hacc
      subst hnil
      refine ih [iv] hvl2 hsl2 ?_ ?_ ?_
      · intro x hx
        rw [List.mem_singleton] at hx
        exact hx ▸ hiv
      · exact List.chain'_singleton iv
      · intro x hx y hy
        simp only [List.getLast?_singleton, Option.mem_def, Option.some.injEq] at hx
        exact hx ▸ hivle y hy
    · obtain ⟨front, hfront⟩ := List.getLast?_eq_some_iff.1 hacc
      by_cases hgap : last.stop < iv.start
      · have hstep : mergeStep acc iv = acc ++ [iv] := by
          unfold mergeStep
          rw [hacc]
          dsimp only
          rw [if_pos hgap]
        rw [hstep]
        refine ih (acc ++ [iv]) hvl2 hsl2 ?_ ?_ ?_
        · intro x hx
          rcases List.mem_append.1 hx with h | h
          · exact hva x h
          · rw [List.mem_singleton] at h
            exact h ▸ hiv
        · rw [List.chain'_append]
          refine ⟨hca, List.chain'_singleton iv, ?_⟩
          intro x hx y hy
          simp only [Option.mem_def] at hx hy
          rw [hacc] at hx
          simp only [List.head?_cons, Option.some.injEq] at hy
          cases hx
          cases hy
          exact hgap
        · intro x hx y hy
          rw [List.getLast?_concat] at hx
          simp only [Option.mem_def, Option.some.injEq] at hx
          exact hx ▸ hivle y hy
      · have hstep : mergeStep acc iv = front ++ [⟨last.start, max last.stop iv.stop⟩] := by
          unfold mergeStep
          rw [hacc]
          dsimp only
          rw [if_neg hgap, hfront, List.dropLast_concat]
        rw [hstep]
        have hcf : front.Chain' (fun a b => a.stop < b.start) ∧
            ∀ x ∈ front.getLast?, x.stop < last.start := by
          rw [hfront, List.chain'_append] at hca
          refine ⟨hca.1, ?_⟩
          intro x hx
          exact hca.2.2 x hx last (by simp)
        have hlastv : last.start < last.stop :=
          hva last (by rw [hfront]; exact List.mem_append_right _ (by simp))
        refine ih (front ++ [⟨last.start, max last.stop iv.stop⟩]) hvl2 hsl2 ?_ ?_ ?_
        · intro x hx
          rcases List.mem_append.1 hx with h | h
          · exact hva x (by rw [hfront]; exact List.mem_append_left _ h)
          · rw [List.mem_singleton] at h
            subst h
            exact lt_max_of_lt_left hlastv
        · rw [List.chain'_append]
          refine ⟨hcf.1, List.chain'_singleton _, ?_⟩
          intro x hx y hy
          simp only [List.head?_cons, Option.mem_def, Option.some.injEq] at hy
          subst hy
          exact hcf.2 x hx
        · intro x hx y hy
          rw [List.getLast?_concat] at hx
          simp only [Option.mem_def, Option.some.injEq] at hx
          subst hx
          have h1 : last.start ≤ iv.start := hlast last (by rw [hacc]; rfl) iv
            (List.mem_cons_self _ _)
          exact le_trans h1 (hivle y hy)

/-- The merged union intervals of any event list are nonempty and
strictly separated. -/
theorem unionIntervals_inv (events : List ScheduleEvent) :
    (∀ iv ∈ unionIntervals events, iv.start < iv.stop) ∧
    (unionIntervals events).Chain' (fun a b => a.stop < b.start) := by
  unfold unionIntervals
  set ivs := ((events.map fun e =>
      (⟨max (visibleWindow events).1 (minutesOfDay e.start),
        min (visibleWindow events).2 (minutesOfDay e.stop)⟩ : Iv)).filter
    fun iv => decide (iv.start < iv.stop)) with hivs
  have hvalid : ∀ iv ∈ ivs.insertionSort (fun a b => a.start ≤ b.start),
      iv.start < iv.stop := by
    intro iv hm
    have : iv ∈ ivs := (List.perm_insertionSort _ ivs).mem_iff.1 hm
    rw [hivs] at this
    have := List.of_mem_filter this
    exact of_decide_eq_true this
  have hsorted : (ivs.insertionSort (fun a b => a.start ≤ b.start)).Pairwise
      (fun a b => a.start ≤ b.start) := by
    haveI : IsTotal Iv (fun a b => a.start ≤ b.start) := ⟨fun a b => le_total _ _⟩
    haveI : IsTrans Iv (fun a b => a.start ≤ b.start) := ⟨fun _ _ _ hab hbc => le_trans hab hbc⟩
    exact List.sorted_insertionSort _ ivs
  exact mergeFold_inv _ [] hvalid hsorted (by simp) List.chain'_nil (by simp)

/-- With HOUR_HEIGHT at 60 pixels per hour, minutes over 60 times the
rate is exactly the minute count. -/
theorem q60 (x : ℚ) : x / 60 * HOUR_HEIGHT = x := by
  unfold HOUR_HEIGHT
  rw [div_mul_cancel₀ x (by norm_num)]

/-- The height of a visible segment is its minute span. -/
theorem visSeg_height (a b : Int) : (visSeg a b).height = ((b - a : Int) : ℚ) := by
  unfold visSeg
  exact q60 _

/-- Every emitted segment has nonnegative height, and a visible segment
is at true scale: its height is its minute span. -/
theorem buildSegs_inv (l : List Iv) (hv : ∀ iv ∈ l, iv.start < iv.stop) :
    ∀ s ∈ buildSegs l, 0 ≤ s.height ∧
      (s.kind = SegKind.visible → s.height = ((s.stop - s.start : Int) : ℚ)) := by
  induction l with
  | nil =>
    intro s hs
    simp [buildSegs] at hs
  | cons cur tail ih =>
    have hcur : cur.start < cur.stop := hv cur (List.mem_cons_self _ _)
    have hvt : ∀ iv ∈ tail, iv.start < iv.stop :=
      fun iv hiv => hv iv (List.mem_cons_of_mem _ hiv)
    cases tail with
    | nil =>
      intro s hs
      simp only [buildSegs, List.mem_singleton] at hs
      subst hs
      rw [visSeg_height]
      refine ⟨by exact_mod_cast Int.sub_nonneg.2 hcur.le, fun _ => rfl⟩
    | cons next rest =>
      intro s hs
      simp only [buildSegs, List.mem_cons, List.mem_append] at hs
      rcases hs with hs | hs | hs
      · subst hs
        rw [visSeg_height]
        refine ⟨by exact_mod_cast Int.sub_nonneg.2 hcur.le, fun _ => rfl⟩
      · revert hs
        split
        · rename_i hpos
          split
          · intro hs
            rw [List.mem_singleton] at hs
            subst hs
            refine ⟨by norm_num [GAP_MARKER_HEIGHT], fun h => absurd h (by simp)⟩
          · intro hs
            rw [List.mem_singleton] at hs
            subst hs
            rw [visSeg_height]
            refine ⟨by exact_mod_cast hpos.le, fun _ => rfl⟩
        · intro hs
          simp at hs
      · exact ih hvt s hs

/-- Every segment the pipeline emits has nonnegative height and visible
segments are at true scale. -/
theorem segmentsOf_inv (events : List ScheduleEvent) :
    ∀ s ∈ segmentsOf events, 0 ≤ s.height ∧
      (s.kind = SegKind.visible → s.height = ((s.stop - s.start : Int) : ℚ)) := by
  intro s hs
  unfold segmentsOf at hs
  dsimp only at hs
  revert hs
  split
  · intro hs
    simp at hs
  · rename_i hnd
    split
    · intro hs
      rw [List.mem_singleton] at hs
      subst hs
      rw [visSeg_height]
      refine ⟨by exact_mod_cast Int.sub_nonneg.2 (by omega : (visibleWindow events).1 ≤ (visibleWindow events).2), fun _ => rfl⟩
    · rename_i iv ivs heq
      intro hs
      exact buildSegs_inv _ (by rw [← heq]; exact (unionIntervals_inv events).1) s hs

/-- The accumulated offset is never negative. -/
theorem mapYAux_nonneg (segs : List Seg) (hh : ∀ s ∈ segs, 0 ≤ s.height) :
    ∀ m : Int, 0 ≤ mapYAux segs m := by
  induction segs with
  | nil =>
    intro m
    simp [mapYAux]
  | cons seg rest ih =>
    intro m
    have hh0 := hh seg (List.mem_cons_self _ _)
    have hhr : ∀ s ∈ rest, 0 ≤ s.height := fun s hs => hh s (List.mem_cons_of_mem _ hs)
    simp only [mapYAux]
    split
    · exact le_refl 0
    · rename_i hge
      split
      · exact add_nonneg hh0 (ih hhr m)
      · split
        · rw [q60]
          exact_mod_cast Int.sub_nonneg.2 (by omega)
        · exact le_refl 0

/-- Monotonicity of the offset walk over any segment list with
nonnegative heights and true-scale visible segments. -/
theorem mapYAux_mono (segs : List Seg)
    (hh : ∀ s ∈ segs, 0 ≤ s.height)
    (hvis : ∀ s ∈ segs, s.kind = SegKind.visible → s.height = ((s.stop - s.start : Int) : ℚ)) :
    ∀ a b : Int, a ≤ b → mapYAux segs a ≤ mapYAux segs b := by
  induction segs with
  | nil =>
    intro a b _
    simp [mapYAux]
  | cons seg rest ih =>
    intro a b hab
    have hh0 := hh seg (List.mem_cons_self _ _)
    have hhr : ∀ s ∈ rest, 0 ≤ s.height := fun s hs => hh s (List.mem_cons_of_mem _ hs)
    have hvr : ∀ s ∈ rest, s.kind = SegKind.visible →
        s.height = ((s.stop - s.start : Int) : ℚ) :=
      fun s hs => hvis s (List.mem_cons_of_mem _ hs)
    have hv0 := hvis seg (List.mem_cons_self _ _)
    simp only [mapYAux]
    by_cases hb1 : b < seg.start
    · rw [if_pos (by omega : a < seg.start), if_pos hb1]
    · rw [if_neg hb1]
      by_cases ha1 : a < seg.start
      · rw [if_pos ha1]
        by_cases hb2 : seg.stop ≤ b
        · rw [if_pos hb2]
          exact add_nonneg hh0 (mapYAux_nonneg rest hhr b)
        · rw [if_neg hb2]
          cases hk : seg.kind
          · dsimp only
            rw [q60]
            exact_mod_cast Int.sub_nonneg.2 (by omega)
          · exact le_refl 0
      · rw [if_neg ha1]
        by_cases ha2 : seg.stop ≤ a
        · rw [if_pos ha2, if_pos (by omega : seg.stop ≤ b)]
          exact add_le_add_left (ih hhr hvr a b hab) _
        · rw [if_neg ha2]
          by_cases hb2 : seg.stop ≤ b
          · rw [if_pos hb2]
            have hr0 := mapYAux_nonneg rest hhr b
            cases hk : seg.kind
            · dsimp only
              rw [q60]
              have hle : ((a - seg.start : Int) : ℚ) ≤ seg.height := by
                rw [hv0 hk]
                exact_mod_cast (by omega : (a - seg.start : Int) ≤ seg.stop - seg.start)
              calc ((a - seg.start : Int) : ℚ) ≤ seg.height := hle
                _ ≤ seg.height + mapYAux rest b := le_add_of_nonneg_right hr0
            · dsimp only
              exact add_nonneg hh0 hr0
          · rw [if_neg hb2]
            cases hk : seg.kind
            · dsimp only
              rw [q60, q60]
              exact_mod_cast (by omega : (a - seg.start : Int) ≤ b - seg.start)
            · exact le_refl 0

/-- C2: the coordinate mapping from minutes of day to vertical offset is
monotonic across the visible window: a ≤ mapMinToY-image order is
preserved for any a < b inside the window. -/
theorem mapMinToY_monotone (events : List ScheduleEvent) (a b : Int)
    (_hwa : (visibleWindow events).1 ≤ a) (_hwb : b ≤ (visibleWindow events).2)
    (hab : a < b) :
    mapMinToY events a ≤ mapMinToY events b := by
  unfold mapMinToY
  dsimp only
  apply mapYAux_mono _ (fun s hs => (segmentsOf_inv events s hs).1)
    (fun s hs => (segmentsOf_inv events s hs).2)
  exact max_le_max (le_refl _) (min_le_min hab.le (le_refl _))

/-- A 9:00 to 10:00 event. -/
def evA : ScheduleEvent :=
  { start := ⟨2025, 8, 1, 9, 0⟩, stop := ⟨2025, 8, 1, 10, 0⟩, title := "A",
    description := "", capacity := 0, total := 0, waiting := 0, price := 0,
    color := "" }

/-- A 12:00 to 13:00 event (so the 10:00 to 12:00 stretch is a
collapsible gap). -/
def evB : ScheduleEvent :=
  { start := ⟨2025, 8, 1, 12, 0⟩, stop := ⟨2025, 8, 1, 13, 0⟩, title := "B",
    description := "", capacity := 0, total := 0, waiting := 0, price := 0,
    color := "" }

/-- C2 instantiated on a two-event day at minutes 550 and 600, both in
the 540 to 780 window. -/
theorem mapMinToY_monotone_witness :
    (visibleWindow [evA, evB]).1 ≤ 550 ∧ (600 : Int) ≤ (visibleWindow [evA, evB]).2 ∧
    mapMinToY [evA, evB] 550 ≤ mapMinToY [evA, evB] 600 :=
  ⟨by decide, by decide,
    mapMinToY_monotone [evA, evB] 550 600 (by decide) (by decide) (by decide)⟩

/-- Gap segments are only ever emitted for idle stretches of at least
the collapse threshold, always at the fixed marker height. -/
theorem buildSegs_gap_rule (l : List Iv) :
    ∀ s ∈ buildSegs l, s.kind = SegKind.gap →
      MIN_COLLAPSIBLE_GAP_MINUTES ≤ s.stop - s.start ∧ s.height = GAP_MARKER_HEIGHT := by
  induction l with
  | nil =>
    intro s hs
    simp [buildSegs] at hs
  | cons cur tail ih =>
    cases tail with
    | nil =>
      intro s hs hk
      simp only [buildSegs, List.mem_singleton] at hs
      subst hs
      exact absurd hk (by simp [visSeg])
    | cons next rest =>
      intro s hs hk
      simp only [buildSegs, List.mem_cons, List.mem_append] at hs
      rcases hs with hs | hs | hs
      · subst hs
        exact absurd hk (by simp [visSeg])
      · revert hs
        split
        · split
          · rename_i hpos hmin
            intro hs
            rw [List.mem_singleton] at hs
            subst hs
            exact ⟨hmin, rfl⟩
          · intro hs
            rw [List.mem_singleton] at hs
            subst hs
            exact absurd hk (by simp [visSeg])
        · intro hs
          simp at hs
      · exact ih s hs hk

/-- Along a strictly separated interval list, the head starts no later
than any member. -/
theorem chain_head_le (l : List Iv) (hch : l.Chain' (fun a b => a.stop < b.start))
    (hv : ∀ iv ∈ l, iv.start < iv.stop) :
    ∀ x ∈ l.head?, ∀ iv ∈ l, x.start ≤ iv.start := by
  induction l with
  | nil =>
    intro x hx
    simp at hx
  | cons c tail ih =>
    intro x hx iv hiv
    simp only [List.head?_cons, Option.mem_def, Option.some.injEq] at hx
    subst hx
    rcases List.mem_cons.1 hiv with h | h
    · exact h ▸ le_refl _
    · obtain ⟨hrel, hcht⟩ := List.chain'_cons'.1 hch
      cases tail with
      | nil => simp at h
      | cons y rest =>
        have h1 : c.stop < y.start := hrel y (by simp)
        have h2 : y.start ≤ iv.start := ih hcht
          (fun z hz => hv z (List.mem_cons_of_mem _ hz)) y (by simp) iv h
        have h3 : c.start < c.stop := hv c (List.mem_cons_self _ _)
        omega

/-- Every segment emitted for a strictly separated interval list starts
no earlier than the head interval. -/
theorem buildSegs_start_lb (l : List Iv) (hch : l.Chain' (fun a b => a.stop < b.start))
    (hv : ∀ iv ∈ l, iv.start < iv.stop) :
    ∀ x ∈ l.head?, ∀ s ∈ buildSegs l, x.start ≤ s.start := by
  induction l with
  | nil =>
    intro x hx
    simp at hx
  | cons cur tail ih =>
    intro x hx s hs
    simp only [List.head?_cons, Option.mem_def, Option.some.injEq] at hx
    subst hx
    have hcv : cur.start < cur.stop := hv cur (List.mem_cons_self _ _)
    cases tail with
    | nil =>
      simp only [buildSegs, List.mem_singleton] at hs
      subst hs
      exact le_refl _
    | cons next rest =>
      have hxn : cur.stop < next.start := (List.chain'_cons.1 hch).1
      have hcht := (List.chain'_cons.1 hch).2
      have hvt : ∀ iv ∈ next :: rest, iv.start < iv.stop :=
        fun iv hiv => hv iv (List.mem_cons_of_mem _ hiv)
      simp only [buildSegs, List.mem_cons, List.mem_append] at hs
      rcases hs with hs | hs | hs
      · subst hs
        exact le_refl _
      · revert hs
        split
        · split <;>
            · intro hs
              rw [List.mem_singleton] at hs
              subst hs
              exact hcv.le
        · intro hs
          simp at hs
      · have := ih hcht hvt next (by simp) s hs
        omega

/-- For each consecutive pair of merged intervals: a collapsible idle
stretch yields exactly one gap marker with those endpoints, and a short
one yields a true-scale visible segment. -/
theorem buildSegs_pair (l : List Iv) (hv : ∀ iv ∈ l, iv.start < iv.stop)
    (hch : l.Chain' (fun a b => a.stop < b.start)) :
    ∀ i c n, l[i]? = some c → l[i + 1]? = some n →
      (MIN_COLLAPSIBLE_GAP_MINUTES ≤ n.start - c.stop →
        (buildSegs l).count ⟨SegKind.gap, c.stop, n.start, GAP_MARKER_HEIGHT⟩ = 1) ∧
      (n.start - c.stop < MIN_COLLAPSIBLE_GAP_MINUTES →
        visSeg c.stop n.start ∈ buildSegs l) := by
  induction l with
  | nil =>
    intro i c n hc hn
    simp at hc
  | cons x tail ih =>
    intro i c n hc hn
    cases tail with
    | nil =>
      rcases i with _ | i <;> simp at hn
    | cons y rest =>
      have hxy : x.stop < y.start := (List.chain'_cons.1 hch).1
      have hcht := (List.chain'_cons.1 hch).2
      have hvt : ∀ iv ∈ y :: rest, iv.start < iv.stop :=
        fun iv hiv => hv iv (List.mem_cons_of_mem _ hiv)
      cases i with
      | zero =>
        rw [List.getElem?_cons_zero, Option.some.injEq] at hc
        rw [List.getElem?_cons_succ, List.getElem?_cons_zero, Option.some.injEq] at hn
        subst hc
        subst hn
        constructor
        · intro hmin
          have hbuild : buildSegs (x :: y :: rest) =
              visSeg x.start x.stop ::
                ([⟨SegKind.gap, x.stop, y.start, GAP_MARKER_HEIGHT⟩] ++
                  buildSegs (y :: rest)) := by
            simp only [buildSegs]
            rw [if_pos (by omega), if_pos hmin]
          rw [hbuild, List.count_cons, List.count_append]
          have h1 : (buildSegs (y :: rest)).count
              ⟨SegKind.gap, x.stop, y.start, GAP_MARKER_HEIGHT⟩ = 0 := by
            rw [List.count_eq_zero]
            intro hmem
            have := buildSegs_start_lb (y :: rest) hcht hvt y (by simp) _ hmem
            dsimp only at this
            omega
          have h2 : (visSeg x.start x.stop ==
              (⟨SegKind.gap, x.stop, y.start, GAP_MARKER_HEIGHT⟩ : Seg)) = false := by
            simp [visSeg]
          rw [h1, h2]
          simp
        · intro hmin
          have hbuild : buildSegs (x :: y :: rest) =
              visSeg x.start x.stop ::
                ([visSeg x.stop y.start] ++ buildSegs (y :: rest)) := by
            simp only [buildSegs]
            rw [if_pos (by omega), if_neg (by omega)]
          rw [hbuild]
          exact List.mem_cons_of_mem _ (List.mem_append_left _ (by simp))
      | succ i =>
        rw [List.getElem?_cons_succ] at hc hn
        have hcn := ih hvt hcht i c n hc hn
        have hcmem : c ∈ y :: rest := List.getElem?_mem hc
        have hcy : y.start ≤ c.start := chain_head_le _ hcht hvt y (by simp) c hcmem
        have hcvalid : c.start < c.stop := hvt c hcmem
        have hbuild : ∀ s ∈ buildSegs (x :: y :: rest),
            s ∈ ([visSeg x.start x.stop] ++
              (if 0 < y.start - x.stop then
                if MIN_COLLAPSIBLE_GAP_MINUTES ≤ y.start - x.stop then
                  [⟨SegKind.gap, x.stop, y.start, GAP_MARKER_HEIGHT⟩]
                else [visSeg x.stop y.start]
              else [])) ∨ s ∈ buildSegs (y :: rest) := by
          intro s hs
          simp only [buildSegs, List.mem_cons, List.mem_append] at hs
          rcases hs with hs | hs | hs
          · exact Or.inl (List.mem_append_left _ (by simp [hs]))
          · exact Or.inl (List.mem_append_right _ hs)
          · exact Or.inr hs
        constructor
        · intro hmin
          have hbuild2 : buildSegs (x :: y :: rest) =
              visSeg x.start x.stop ::
                ((if 0 < y.start - x.stop then
                  if MIN_COLLAPSIBLE_GAP_MINUTES ≤ y.start - x.stop then
                    [⟨SegKind.gap, x.stop, y.start, GAP_MARKER_HEIGHT⟩]
                  else [visSeg x.stop y.start]
                else []) ++ buildSegs (y :: rest)) := by
            simp only [buildSegs]
          rw [hbuild2, List.count_cons, List.count_append]
          have h2 : (visSeg x.start x.stop ==
              (⟨SegKind.gap, c.stop, n.start, GAP_MARKER_HEIGHT⟩ : Seg)) = false := by
            simp [visSeg]
          have h3 : (if 0 < y.start - x.stop then
              if MIN_COLLAPSIBLE_GAP_MINUTES ≤ y.start - x.stop then
                [(⟨SegKind.gap, x.stop, y.start, GAP_MARKER_HEIGHT⟩ : Seg)]
              else [visSeg x.stop y.start]
            else []).count ⟨SegKind.gap, c.stop, n.start, GAP_MARKER_HEIGHT⟩ = 0 := by
            split
            · split
              · rw [List.count_eq_zero]
                intro hmem
                rw [List.mem_singleton] at hmem
                have : x.stop = c.stop := by
                  have := congrArg Seg.start hmem
                  exact this.symm
                omega
              · rw [List.count_eq_zero]
                intro hmem
                rw [List.mem_singleton] at hmem
                have := congrArg Seg.kind hmem
                simp [visSeg] at this
            · simp
          rw [h2, h3, (hcn.1 hmin)]
          simp
        · intro hmin
          have hbuild2 : buildSegs (x :: y :: rest) =
              visSeg x.start x.stop ::
                ((if 0 < y.start - x.stop then
                  if MIN_COLLAPSIBLE_GAP_MINUTES ≤ y.start - x.stop then
                    [⟨SegKind.gap, x.stop, y.start, GAP_MARKER_HEIGHT⟩]
                  else [visSeg x.stop y.start]
                else []) ++ buildSegs (y :: rest)) := by
            simp only [buildSegs]
          rw [hbuild2]
          exact List.mem_cons_of_mem _ (List.mem_append_right _ (hcn.2 hmin))

/-- With a degenerate visible window every clipped interval is empty,
so the union is empty. -/
theorem unionIntervals_nil_of_deg (events : List ScheduleEvent)
    (h : (visibleWindow events).2 ≤ (visibleWindow events).1) :
    unionIntervals events = [] := by
  unfold unionIntervals
  dsimp only
  have hfil : ((events.map fun e =>
      (⟨max (visibleWindow events).1 (minutesOfDay e.start),
        min (visibleWindow events).2 (minutesOfDay e.stop)⟩ : Iv)).filter
    fun iv => decide (iv.start < iv.stop)) = [] := by
    rw [List.filter_eq_nil_iff]
    intro iv hiv
    rcases List.mem_map.1 hiv with ⟨e, _, heq⟩
    subst heq
    simp only [decide_eq_true_eq, not_lt]
    omega
  rw [hfil]
  rfl

/-- When the union is nonempty the emitted segments are exactly the
emission loop over it. -/
theorem segmentsOf_eq_buildSegs (events : List ScheduleEvent)
    (hne : unionIntervals events ≠ []) :
    segmentsOf events = buildSegs (unionIntervals events) := by
  have hnd : ¬ (visibleWindow events).2 ≤ (visibleWindow events).1 := by
    intro h
    exact hne (unionIntervals_nil_of_deg events h)
  unfold segmentsOf
  dsimp only
  rw [if_neg hnd]
  rcases huni : unionIntervals events with _ | ⟨iv, ivs⟩
  · exact absurd huni hne
  · rfl

/-- C3: a gap segment never covers an idle stretch shorter than 60
minutes and always has the fixed marker height; between two consecutive
merged busy intervals, an idle stretch of at least 60 minutes is emitted
as exactly one collapsed gap segment, while a shorter one is emitted as
a true-scale visible segment and never as a gap. -/
theorem segments_gap_rule (events : List ScheduleEvent) :
    (∀ s ∈ segmentsOf events, s.kind = SegKind.gap →
      MIN_COLLAPSIBLE_GAP_MINUTES ≤ s.stop - s.start ∧ s.height = GAP_MARKER_HEIGHT) ∧
    (∀ i c n, (unionIntervals events)[i]? = some c →
      (unionIntervals events)[i + 1]? = some n →
      (MIN_COLLAPSIBLE_GAP_MINUTES ≤ n.start - c.stop →
        (segmentsOf events).count
          ⟨SegKind.gap, c.stop, n.start, GAP_MARKER_HEIGHT⟩ = 1) ∧
      (n.start - c.stop < MIN_COLLAPSIBLE_GAP_MINUTES →
        visSeg c.stop n.start ∈ segmentsOf events ∧
        ∀ s ∈ segmentsOf events, s.kind = SegKind.gap →
          ¬(s.start = c.stop ∧ s.stop = n.start))) := by
  have hgap : ∀ s ∈ segmentsOf events, s.kind = SegKind.gap →
      MIN_COLLAPSIBLE_GAP_MINUTES ≤ s.stop - s.start ∧ s.height = GAP_MARKER_HEIGHT := by
    intro s hs hk
    unfold segmentsOf at hs
    dsimp only at hs
    revert hs
    split
    · intro hs
      simp at hs
    · split
      · intro hs
        rw [List.mem_singleton] at hs
        subst hs
        exact absurd hk (by simp [visSeg])
      · rename_i iv ivs heq
        intro hs
        exact buildSegs_gap_rule _ s hs hk
  refine ⟨hgap, ?_⟩
  intro i c n hc hn
  have hne : unionIntervals events ≠ [] := by
    intro h
    rw [h] at hc
    simp at hc
  have hseg := segmentsOf_eq_buildSegs events hne
  have hpair := buildSegs_pair (unionIntervals events) (unionIntervals_inv events).1
    (unionIntervals_inv events).2 i c n hc hn
  refine ⟨fun hmin => by rw [hseg]; exact hpair.1 hmin, fun hmin => ?_⟩
  refine ⟨by rw [hseg]; exact hpair.2 hmin, ?_⟩
  intro s hs hk hends
  have := (hgap s hs hk).1
  omega

/-- C3 instantiated on the two-event day: the merged intervals are
540 to 600 and 720 to 780, and the 120-minute idle stretch between them
appears as exactly one collapsed gap segment. -/
theorem segments_gap_rule_witness :
    (unionIntervals [evA, evB])[0]? = some ⟨540, 600⟩ ∧
    (unionIntervals [evA, evB])[1]? = some ⟨720, 780⟩ ∧
    (segmentsOf [evA, evB]).count
      ⟨SegKind.gap, 600, 720, GAP_MARKER_HEIGHT⟩ = 1 := by
  have h0 : (unionIntervals [evA, evB])[0]? = some ⟨540, 600⟩ := by decide
  have h1 : (unionIntervals [evA, evB])[1]? = some ⟨720, 780⟩ := by decide
  refine ⟨h0, h1, ?_⟩
  have := ((segments_gap_rule [evA, evB]).2 0 ⟨540, 600⟩ ⟨720, 780⟩ h0 h1).1 (by decide)
  exact this

/-- Two events overlap when each starts before the other ends (the
half-open active ranges share an instant). -/
def overlaps (a b : ScheduleEvent) : Prop :=
  a.start.key < b.stop.key ∧ b.start.key < a.stop.key

/-- Well-formedness of one packed column: nonempty, consecutive events
ordered end-before-start, and every end at or before the last end. -/
def ColOk (c : List ScheduleEvent) : Prop :=
  c ≠ [] ∧ c.Pairwise (fun a b => a.stop.key ≤ b.start.key) ∧
    ∀ x ∈ c, x.stop.key ≤ colLastEnd c

/-- Placing an event adds it once: the flattened columns are a
permutation of the event added to the previous flattening. -/
theorem place_flatten_perm (e : ScheduleEvent) :
    ∀ cols : List (List ScheduleEvent),
      (place e cols).flatten.Perm (e :: cols.flatten) := by
  intro cols
  induction cols with
  | nil => simp [place]
  | cons c cs ih =>
    unfold place
    split
    · rw [List.flatten_cons, List.flatten_cons, List.append_assoc, List.singleton_append]
      exact List.perm_middle
    · rw [List.flatten_cons, List.flatten_cons]
      exact ((List.Perm.append_left c ih).trans List.perm_middle)

/-- Placement either reuses a column, or opens a new one because the
event starts before every column's last end. -/
theorem place_length (e : ScheduleEvent) :
    ∀ cols : List (List ScheduleEvent),
      (place e cols).length = cols.length ∨
        ((place e cols).length = cols.length + 1 ∧
          ∀ c ∈ cols, e.start.key < colLastEnd c) := by
  intro cols
  induction cols with
  | nil =>
    right
    exact ⟨rfl, by simp⟩
  | cons c cs ih =>
    unfold place
    split
    · left
      simp
    · rename_i hnofit
      rcases ih with h | ⟨hlen, hall⟩
      · left
        simp [h]
      · right
        refine ⟨by simp [hlen], ?_⟩
        intro c2 hc2
        rcases List.mem_cons.1 hc2 with h | h
        · subst h
          omega
        · exact hall c2 h

/-- Placement preserves column well-formedness. -/
theorem place_colOk (e : ScheduleEvent) (he : e.start.key ≤ e.stop.key) :
    ∀ cols : List (List ScheduleEvent), (∀ c ∈ cols, ColOk c) →
      ∀ c ∈ place e cols, ColOk c := by
  intro cols
  induction cols with
  | nil =>
    intro _ c hc
    simp only [place, List.mem_singleton] at hc
    subst hc
    refine ⟨by simp, by simp, ?_⟩
    intro x hx
    rw [List.mem_singleton] at hx
    subst hx
    simp [colLastEnd]
  | cons c0 cs ih =>
    intro hok c hc
    revert hc
    unfold place
    split
    · rename_i hfit
      intro hc
      rcases List.mem_cons.1 hc with h | h
      · subst h
        obtain ⟨hne, hpw, hlast⟩ := hok c0 (List.mem_cons_self _ _)
        refine ⟨by simp, ?_, ?_⟩
        · rw [List.pairwise_append]
          refine ⟨hpw, by simp, ?_⟩
          intro x hx y hy
          rw [List.mem_singleton] at hy
          subst hy
          exact le_trans (hlast x hx) hfit
        · intro x hx
          have hle : colLastEnd (c0 ++ [e]) = e.stop.key := by
            unfold colLastEnd
            rw [List.getLast?_concat]
          rw [hle]
          rcases List.mem_append.1 hx with h | h
          · exact le_trans (hlast x h) (le_trans hfit he)
          · rw [List.mem_singleton] at h
            subst h
            exact le_refl _
      · exact hok c (List.mem_cons_of_mem _ h)
    · intro hc
      rcases List.mem_cons.1 hc with h | h
      · subst h
        exact hok c (List.mem_cons_self _ _)
      · exact ih (fun c2 hc2 => hok c2 (List.mem_cons_of_mem _ hc2)) c h

/-- countAt is additive over appends. -/
theorem countAt_append (l1 l2 : List ScheduleEvent) (t : Int) :
    countAt (l1 ++ l2) t = countAt l1 t + countAt l2 t := by
  unfold countAt
  rw [List.filter_append, List.length_append]

/-- countAt is invariant under permutation. -/
theorem countAt_perm {l1 l2 : List ScheduleEvent} (h : l1.Perm l2) (t : Int) :
    countAt l1 t = countAt l2 t :=
  (h.filter _).length_eq

/-- countAt over a flattening is the sum of per-column counts. -/
theorem countAt_flatten (cols : List (List ScheduleEvent)) (t : Int) :
    countAt cols.flatten t = (cols.map fun c => countAt c t).sum := by
  induction cols with
  | nil => rfl
  | cons c cs ih =>
    rw [List.flatten_cons, countAt_append, List.map_cons, List.sum_cons, ih]

/-- A well-ordered column holds at most one event active at any
instant. -/
theorem countAt_le_one (c : List ScheduleEvent)
    (hpw : c.Pairwise fun a b => a.stop.key ≤ b.start.key) (t : Int) :
    countAt c t ≤ 1 := by
  unfold countAt
  have hfp := hpw.filter (fun e => decide (e.start.key ≤ t) && decide (t < e.stop.key))
  rcases hfil : c.filter (fun e => decide (e.start.key ≤ t) && decide (t < e.stop.key)) with _ | ⟨a, _ | ⟨b, r⟩⟩
  · rw [hfil]
    simp
  · rw [hfil]
    simp
  · rw [hfil] at hfp
    have hab : a.stop.key ≤ b.start.key :=
      (List.pairwise_cons.1 hfp).1 b (List.mem_cons_self _ _)
    have ha : a ∈ c.filter (fun e => decide (e.start.key ≤ t) && decide (t < e.stop.key)) := by
      rw [hfil]
      exact List.mem_cons_self _ _
    have hb : b ∈ c.filter (fun e => decide (e.start.key ≤ t) && decide (t < e.stop.key)) := by
      rw [hfil]
      exact List.mem_cons_of_mem _ (List.mem_cons_self _ _)
    have hpa := List.of_mem_filter ha
    have hpb := List.of_mem_filter hb
    rw [Bool.and_eq_true, decide_eq_true_eq, decide_eq_true_eq] at hpa hpb
    omega

/-- A member active at the instant makes the count positive. -/
theorem countAt_pos (c : List ScheduleEvent) (x : ScheduleEvent) (hx : x ∈ c)
    (t : Int) (hact : x.start.key ≤ t ∧ t < x.stop.key) :
    1 ≤ countAt c t := by
  unfold countAt
  have : x ∈ c.filter (fun e => decide (e.start.key ≤ t) && decide (t < e.stop.key)) :=
    List.mem_filter.2 ⟨hx, by simp [hact.1, hact.2]⟩
  exact List.length_pos.2 (List.ne_nil_of_mem this)

/-- A list of columns each counting at least one has sum at least the
column count. -/
theorem length_le_sum_map (cols : List (List ScheduleEvent)) (f : List ScheduleEvent → Nat)
    (h : ∀ c ∈ cols, 1 ≤ f c) : cols.length ≤ (cols.map f).sum := by
  induction cols with
  | nil => simp
  | cons c cs ih =>
    rw [List.map_cons, List.sum_cons, List.length_cons]
    have h1 := h c (List.mem_cons_self _ _)
    have h2 := ih fun c2 hc2 => h c2 (List.mem_cons_of_mem _ hc2)
    omega

/-- A list of columns each counting at most one has sum at most the
column count. -/
theorem sum_map_le_length (cols : List (List ScheduleEvent)) (f : List ScheduleEvent → Nat)
    (h : ∀ c ∈ cols, f c ≤ 1) : (cols.map f).sum ≤ cols.length := by
  induction cols with
  | nil => simp
  | cons c cs ih =>
    rw [List.map_cons, List.sum_cons, List.length_cons]
    have h1 := h c (List.mem_cons_self _ _)
    have h2 := ih fun c2 hc2 => h c2 (List.mem_cons_of_mem _ hc2)
    omega

/-- Invariant of the placement fold: the columns partition the processed
events, every column is well formed, and (unless nothing was processed)
some processed event start witnesses at least as many simultaneous
events as there are columns. -/
def PackInv (processed : List ScheduleEvent) (cols : List (List ScheduleEvent)) : Prop :=
  cols.flatten.Perm processed ∧ (∀ c ∈ cols, ColOk c) ∧
    ((processed = [] ∧ cols = []) ∨
      ∃ x ∈ processed, cols.length ≤ countAt processed x.start.key)

/-- One placement step preserves the invariant, provided every processed
event starts no later than the new one. -/
theorem packStep (processed : List ScheduleEvent) (cols : List (List ScheduleEvent))
    (e : ScheduleEvent) (hinv : PackInv processed cols)
    (hall : ∀ x ∈ processed, x.start.key ≤ e.start.key)
    (he : e.start.key < e.stop.key) :
    PackInv (processed ++ [e]) (place e cols) := by
  obtain ⟨hperm, hok, hlow⟩ := hinv
  refine ⟨?_, place_colOk e he.le cols hok, ?_⟩
  · exact (place_flatten_perm e cols).trans
      ((hperm.cons e).trans (List.perm_append_singleton e processed).symm)
  · have hecount : countAt [e] e.start.key = 1 := by
      unfold countAt
      rw [List.filter_cons]
      simp [le_refl, he]
    rcases hlow with ⟨hp0, hc0⟩ | ⟨x, hx, hcount⟩
    · subst hp0
      subst hc0
      right
      refine ⟨e, by simp, ?_⟩
      simp only [place, List.length_singleton, List.nil_append]
      rw [hecount]
    · rcases place_length e cols with hlen | ⟨hlen, hfill⟩
      · right
        refine ⟨x, List.mem_append_left _ hx, ?_⟩
        rw [hlen, countAt_append]
        omega
      · right
        refine ⟨e, List.mem_append_right _ (by simp), ?_⟩
        rw [hlen, countAt_append, hecount]
        have hge : cols.length ≤ countAt processed e.start.key := by
          rw [← countAt_perm hperm, countAt_flatten]
          refine length_le_sum_map cols _ ?_
          intro c hc
          obtain ⟨hne, _, _⟩ := hok c hc
          set last := c.getLast hne with hlastdef
          have hlmem : last ∈ c := List.getLast_mem hne
          have hlproc : last ∈ processed := by
            refine hperm.mem_iff.1 ?_
            exact List.mem_flatten.2 ⟨c, hc, hlmem⟩
          have hlend : colLastEnd c = last.stop.key := by
            unfold colLastEnd
            rw [List.getLast?_eq_getLast c hne]
          have hlt : e.start.key < last.stop.key := by
            rw [← hlend]
            exact hfill c hc
          exact countAt_pos c last hlmem e.start.key ⟨hall last hlproc, hlt⟩
        omega

/-- The placement fold over a sorted suffix preserves the invariant. -/
theorem packFold (l : List ScheduleEvent) :
    ∀ (processed : List ScheduleEvent) (cols : List (List ScheduleEvent)),
    l.Pairwise (fun a b => a.start.key ≤ b.start.key) →
    (∀ x ∈ processed, ∀ y ∈ l, x.start.key ≤ y.start.key) →
    (∀ y ∈ l, y.start.key < y.stop.key) →
    PackInv processed cols →
    PackInv (processed ++ l) (l.foldl (fun cols e => place e cols) cols) := by
  induction l with
  | nil =>
    intro processed cols _ _ _ hinv
    rw [List.append_nil]
    exact hinv
  | cons e l ih =>
    intro processed cols hsort hcross hval hinv
    rw [List.foldl_cons]
    have hstep := packStep processed cols e hinv
      (fun x hx => hcross x hx e (List.mem_cons_self _ _))
      (hval e (List.mem_cons_self _ _))
    have hrec := ih (processed ++ [e]) (place e cols)
      (List.pairwise_cons.1 hsort).2
      (fun x hx y hy => by
        rcases List.mem_append.1 hx with h | h
        · exact hcross x h y (List.mem_cons_of_mem _ hy)
        · rw [List.mem_singleton] at h
          subst h
          exact (List.pairwise_cons.1 hsort).1 y hy)
      (fun y hy => hval y (List.mem_cons_of_mem _ hy))
      hstep
    rw [List.append_assoc, List.singleton_append] at hrec
    exact hrec

/-- C1: for a day bucket whose events all have positive duration, the
greedy packing separates events into columns with no two overlapping
events sharing a column, and the number of columns equals the maximum
number of simultaneously active events over all instants. -/
theorem packDay_correct (l : List ScheduleEvent)
    (hv : ∀ e ∈ l, e.start.key < e.stop.key) :
    (∀ c ∈ packDay l, c.Pairwise fun a b => ¬ overlaps a b) ∧
    (∀ t : Int, countAt l t ≤ (packDay l).length) ∧
    (∃ t : Int, countAt l t = (packDay l).length) := by
  have hperm : (sortByStart l).Perm l := List.perm_insertionSort _ l
  have hsorted : (sortByStart l).Pairwise fun a b => a.start.key ≤ b.start.key := by
    haveI : IsTotal ScheduleEvent (fun a b => a.start.key ≤ b.start.key) :=
      ⟨fun a b => le_total _ _⟩
    haveI : IsTrans ScheduleEvent (fun a b => a.start.key ≤ b.start.key) :=
      ⟨fun _ _ _ hab hbc => le_trans hab hbc⟩
    exact List.sorted_insertionSort _ l
  have hinv := packFold (sortByStart l) [] [] hsorted (by simp)
    (fun y hy => hv y (hperm.mem_iff.1 hy))
    ⟨by simp, by simp, Or.inl ⟨rfl, rfl⟩⟩
  rw [List.nil_append] at hinv
  obtain ⟨hjperm, hcolok, hlow⟩ := hinv
  have hpackeq : (sortByStart l).foldl (fun cols e => place e cols) [] = packDay l := rfl
  rw [hpackeq] at hjperm hcolok hlow
  have hub : ∀ t : Int, countAt l t ≤ (packDay l).length := by
    intro t
    have h1 : countAt l t = countAt (packDay l).flatten t :=
      (countAt_perm (hjperm.trans hperm) t).symm
    rw [h1, countAt_flatten]
    refine sum_map_le_length _ _ ?_
    intro c hc
    exact countAt_le_one c (hcolok c hc).2.1 t
  refine ⟨?_, hub, ?_⟩
  · intro c hc
    refine ((hcolok c hc).2.1).imp ?_
    intro a b hab hov
    exact absurd hov.2 (by omega)
  · rcases hlow with ⟨hp0, hc0⟩ | ⟨x, hx, hcount⟩
    · have hlnil : l = [] := ((hp0 ▸ hperm).symm).eq_nil
      refine ⟨0, ?_⟩
      rw [hc0, hlnil]
      rfl
    · refine ⟨x.start.key, le_antisymm (hub x.start.key) ?_⟩
      rw [countAt_perm hperm.symm x.start.key]
      exact hcount

/-- An event from 9:30 to 10:30, overlapping evA. -/
def evC : ScheduleEvent :=
  { start := ⟨2025, 8, 1, 9, 30⟩, stop := ⟨2025, 8, 1, 10, 30⟩, title := "C",
    description := "", capacity := 0, total := 0, waiting := 0, price := 0,
    color := "" }

/-- C1 instantiated on two overlapping events with positive duration. -/
theorem packDay_correct_witness :
    (∀ c ∈ packDay [evA, evC], c.Pairwise fun a b => ¬ overlaps a b) ∧
    (∀ t : Int, countAt [evA, evC] t ≤ (packDay [evA, evC]).length) ∧
    (∃ t : Int, countAt [evA, evC] t = (packDay [evA, evC]).length) :=
  packDay_correct [evA, evC] (by decide)

end AISB
